import Mathlib

/-!
Verification of the `runeforge-fov` crate: symmetric shadowcasting field of view.

The definitions below are a shallow embedding of
`src/crates/runeforge-fov/src/lib.rs` (and the `Point` type of
`src/crates/runeforge-geometry/src/lib.rs`).  Machine integers (`i32`) are
modelled as `Int`; overflow is outside the scope of the claims treated here.
The source's explicit LIFO work stack in `compute_fov` is modelled as a
structural recursion over spawned rows: the marks and the spawned children of
a row depend only on that row, so the stack order only permutes the order of
`mark_visible` callbacks, leaving the multiset of callback invocations
unchanged.  All claims below are about that multiset (or the underlying set).
-/

set_option maxRecDepth 100000

namespace Runeforge

/-- 2D point with integer coordinates (`runeforge-geometry`, `struct Point`). -/
structure Point where
  x : Int
  y : Int
deriving DecidableEq

/-- `Point::new`. -/
def Point.new (x y : Int) : Point := ⟨x, y⟩

/-- Exact rational slope (`struct Fraction` in lib.rs). -/
structure Fraction where
  numerator : Int
  denominator : Int
deriving DecidableEq

/-- `Fraction::new` — a plain constructor, no validation (lib.rs lines 51-58). -/
def Fraction.new (numerator denominator : Int) : Fraction :=
  ⟨numerator, denominator⟩

/-- `Fraction::greater_equal`: `self.numerator * other.denominator >= other.numerator * self.denominator`. -/
def Fraction.greater_equal (a b : Fraction) : Bool :=
  decide (a.numerator * b.denominator ≥ b.numerator * a.denominator)

/-- `Fraction::less_equal`: `self.numerator * other.denominator <= other.numerator * self.denominator`. -/
def Fraction.less_equal (a b : Fraction) : Bool :=
  decide (a.numerator * b.denominator ≤ b.numerator * a.denominator)

/-- `enum Cardinal` (lib.rs). -/
inductive Cardinal where
  | north
  | south
  | east
  | west
deriving DecidableEq

/-- `Quadrant::transform`: relative (row, col) to absolute map coordinates (lib.rs lines 88-99). -/
def Quadrant.transform (c : Cardinal) (origin : Point) (row col : Int) : Point :=
  match c with
  | .north => Point.new (origin.x + col) (origin.y - row)
  | .south => Point.new (origin.x + col) (origin.y + row)
  | .east => Point.new (origin.x + row) (origin.y + col)
  | .west => Point.new (origin.x - row) (origin.y + col)

/-- `struct Row` (lib.rs). -/
structure Row where
  depth : Int
  start_slope : Fraction
  end_slope : Fraction
deriving DecidableEq

/-- `Row::new`. -/
def Row.new (depth : Int) (start_slope end_slope : Fraction) : Row :=
  ⟨depth, start_slope, end_slope⟩

/-- `num_integer::Integer::div_floor` on `i32`: floor (round toward `-∞`) division. -/
def div_floor (a b : Int) : Int := Int.fdiv a b

/-- `num_integer::Integer::div_ceil` on `i32`: ceiling (round toward `+∞`)
division, `⌈a/b⌉ = -⌊(-a)/b⌋`. -/
def div_ceil (a b : Int) : Int := -Int.fdiv (-a) b

/-- `Row::round_ties_up_frac`: `floor(fraction * depth + 0.5)` (lib.rs lines 134-140). -/
def Row.round_ties_up_frac (frac : Fraction) (depth : Int) : Int :=
  let num := frac.numerator * depth * 2 + frac.denominator
  let den := frac.denominator * 2
  div_floor num den

/-- `Row::round_ties_down_frac`: `ceil(fraction * depth - 0.5)` (lib.rs lines 143-151). -/
def Row.round_ties_down_frac (frac : Fraction) (depth : Int) : Int :=
  let num := frac.numerator * depth * 2 - frac.denominator
  let den := frac.denominator * 2
  div_ceil num den

/-- The inclusive integer range `[lo, hi]` as a list (Rust `lo..=hi` iteration). -/
def rangeInts (lo hi : Int) : List Int :=
  (List.range (hi + 1 - lo).toNat).map (fun (i : Nat) => lo + (i : Int))

/-- `Row::tiles`: the inclusive column range `min_col..=max_col` (lib.rs lines 118-124). -/
def Row.tiles (row : Row) : List Int :=
  rangeInts (Row.round_ties_up_frac row.start_slope row.depth)
    (Row.round_ties_down_frac row.end_slope row.depth)

/-- `Row::next`: same slopes, depth + 1 (lib.rs lines 127-131). -/
def Row.next (row : Row) : Row :=
  Row.new (row.depth + 1) row.start_slope row.end_slope

/-- `Row::slope`: slope through the left edge of the tile, `(2*col - 1) / (2*depth)` (lib.rs lines 154-158). -/
def Row.slope (col depth : Int) : Fraction :=
  Fraction.new (2 * col - 1) (2 * depth)

/-- `Row::is_symmetric`: the tile-center slope `col/depth` lies in `[start_slope, end_slope]` (lib.rs lines 161-166). -/
def Row.is_symmetric (row : Row) (col : Int) : Bool :=
  let slope := Fraction.new col row.depth
  slope.greater_equal row.start_slope && slope.less_equal row.end_slope

/-- `Row::is_wall_visible`: the tile's left-edge slope lies in `[start_slope, end_slope]` (lib.rs lines 169-174). -/
def Row.is_wall_visible (row : Row) (col : Int) : Bool :=
  let slope := Row.slope col row.depth
  slope.greater_equal row.start_slope && slope.less_equal row.end_slope

/-- State produced by the column sweep of one row in `compute_fov`
(the `for col in row.tiles()` loop, lib.rs lines 241-272): the
`mark_visible` invocations, the rows pushed on the stack, the final
(possibly mutated) `start_slope` and the final `prev_tile_blocking`. -/
structure SweepOut where
  marks : List Point
  children : List Row
  start_slope : Fraction
  prev : Option Bool
deriving DecidableEq

/-- The column sweep of `compute_fov` (lib.rs lines 241-272), one step per
column.  The running state is the current `start_slope` (mutated at
wall-to-floor transitions) and `prev_tile_blocking`; a tile farther than
`max_radius_squared` is skipped entirely (`continue`), leaving both
untouched. -/
def scanCols (is_blocking : Point → Bool) (origin : Point) (q : Cardinal)
    (max_radius_squared : Int) (depth : Int) (end_slope : Fraction) :
    List Int → Fraction → Option Bool → SweepOut
  | [], start_slope, prev => ⟨[], [], start_slope, prev⟩
  | col :: cols, start_slope, prev =>
    let tile := Quadrant.transform q origin depth col
    let dx := tile.x - origin.x
    let dy := tile.y - origin.y
    if dx * dx + dy * dy > max_radius_squared then
      scanCols is_blocking origin q max_radius_squared depth end_slope cols start_slope prev
    else
      let tile_blocking := is_blocking tile
      let row : Row := ⟨depth, start_slope, end_slope⟩
      let marked : Bool :=
        (tile_blocking && row.is_wall_visible col) || (!tile_blocking && row.is_symmetric col)
      let next_start : Fraction :=
        match prev with
        | some prev_blocking =>
          if prev_blocking && !tile_blocking then Row.slope col depth else start_slope
        | none => start_slope
      let pushed : List Row :=
        match prev with
        | some prev_blocking =>
          if !prev_blocking && tile_blocking then
            [Row.new (depth + 1) start_slope (Row.slope col depth)]
          else []
        | none => []
      let rest := scanCols is_blocking origin q max_radius_squared depth end_slope cols
        next_start (some tile_blocking)
      ⟨(if marked then [tile] else []) ++ rest.marks, pushed ++ rest.children,
        rest.start_slope, rest.prev⟩

/-- Processing of one popped row (lib.rs lines 232-277): sweep the columns,
then, if the sweep ended on a non-blocking tile, also push `row.next()`
(with the sweep's final `start_slope`). -/
def processRow (is_blocking : Point → Bool) (origin : Point) (q : Cardinal)
    (max_radius_squared : Int) (row : Row) : List Point × List Row :=
  let out := scanCols is_blocking origin q max_radius_squared row.depth row.end_slope
    row.tiles row.start_slope none
  let children := out.children ++
    (if out.prev = some false then [Row.new (row.depth + 1) out.start_slope row.end_slope]
     else [])
  (out.marks, children)

/-- The marks produced by one quadrant's row tree (lib.rs lines 230-278).
A row deeper than `max_radius` is discarded unprocessed.  Every spawned row
has depth one greater than its parent, so fuel `max_radius.toNat + 1`
(supplied by `compute_fov`) never runs out before the depth cutoff. -/
def scanRows (is_blocking : Point → Bool) (origin : Point) (q : Cardinal)
    (max_radius max_radius_squared : Int) : Nat → Row → List Point
  | 0, _ => []
  | gas + 1, row =>
    if row.depth > max_radius then []
    else
      let pr := processRow is_blocking origin q max_radius_squared row
      pr.1 ++ (pr.2.map (scanRows is_blocking origin q max_radius max_radius_squared gas)).flatten

/-- `compute_fov` (lib.rs lines 207-280): the list of `mark_visible`
invocations (up to the permutation induced by modelling the explicit stack
as structural recursion).  The origin is marked first, unconditionally; then
each of the four quadrants is scanned from a depth-1 row with slopes
`[-1/1, 1/1]`. -/
def compute_fov (origin : Point) (max_radius : Int) (is_blocking : Point → Bool) : List Point :=
  origin ::
    (([Cardinal.north, Cardinal.south, Cardinal.east, Cardinal.west].map
      (fun c =>
        scanRows is_blocking origin c max_radius (max_radius * max_radius)
          (max_radius.toNat + 1) (Row.new 1 (Fraction.new (-1) 1) (Fraction.new 1 1)))).flatten)

/-- The loop of `isqrt` (lib.rs lines 333-336): while `result < guess`,
shift to `(guess + x / guess) / 2`.  Rust `i32` division truncates toward
zero; every division here has nonnegative operands, where truncating,
floor and Euclidean division coincide, so it is modelled by `Int` division.
`guess` strictly decreases and stays positive, so fuel `x.toNat` suffices. -/
def isqrt_loop (x : Int) : Nat → Int → Int → Int
  | 0, guess, _ => guess
  | fuel + 1, guess, result =>
    if result < guess then isqrt_loop x fuel result ((result + x / result) / 2)
    else guess

/-- `isqrt` (lib.rs lines 322-340): integer square root by Newton's method. -/
def isqrt (x : Int) : Int :=
  if x ≤ 0 then 0
  else if x = 1 then 1
  else isqrt_loop x x.toNat x ((x + 1) / 2)

/-- `compute_fov_circle` (lib.rs lines 298-318): the list of `mark_visible`
invocations — every `origin + (dx, dy)` with `dy ∈ [-radius, radius]` and
`dx ∈ [-max_dx, max_dx]` where `max_dx = isqrt(radius² - dy²)`. -/
def compute_fov_circle (origin : Point) (radius : Int) : List Point :=
  let radius_squared := radius * radius
  ((rangeInts (-radius) radius).map (fun dy =>
    let dy_squared := dy * dy
    let max_dx_squared := radius_squared - dy_squared
    let max_dx := isqrt max_dx_squared
    (rangeInts (-max_dx) max_dx).map (fun dx =>
      Point.new (origin.x + dx) (origin.y + dy)))).flatten

/-! ### Generic facts about ranges and integer division -/

theorem mem_rangeInts {lo hi x : Int} : x ∈ rangeInts lo hi ↔ lo ≤ x ∧ x ≤ hi := by
  unfold rangeInts
  simp only [List.mem_map, List.mem_range]
  constructor
  · rintro ⟨i, hi', rfl⟩
    omega
  · intro hx
    refine ⟨(x - lo).toNat, by omega, by omega⟩

/-- Floor integer division is the floor of the exact rational quotient. -/
theorem floor_intCast_div (a b : Int) (hb : 0 < b) :
    ⌊(a : ℚ) / (b : ℚ)⌋ = Int.fdiv a b := by
  rw [Int.fdiv_eq_ediv a hb.le]
  have hbQ : (0 : ℚ) < (b : ℚ) := by exact_mod_cast hb
  rw [Int.floor_eq_iff]
  constructor
  · rw [le_div_iff hbQ]
    exact_mod_cast Int.ediv_mul_le a (by omega)
  · rw [div_lt_iff hbQ]
    exact_mod_cast Int.lt_ediv_add_one_mul_self a hb

/-- Ceiling integer division is the ceiling of the exact rational quotient. -/
theorem ceil_intCast_div (a b : Int) (hb : 0 < b) :
    ⌈(a : ℚ) / (b : ℚ)⌉ = div_ceil a b := by
  unfold div_ceil
  rw [← floor_intCast_div (-a) b hb, ← neg_inj, ← Int.floor_neg, neg_neg]
  congr 1
  push_cast
  ring

/-! ### C8: the rounding helpers compute exact rational round-half-up / round-half-down -/

/-- C8: for a positive denominator and depth ≥ 1, `round_ties_up_frac` is
`⌊frac·depth + 1/2⌋` and `round_ties_down_frac` is `⌈frac·depth − 1/2⌉`,
computed over exact rationals with floor resp. ceiling division. -/
theorem round_ties_exact (frac : Fraction) (depth : Int)
    (hden : 0 < frac.denominator) (hdepth : 1 ≤ depth) :
    Row.round_ties_up_frac frac depth =
      ⌊(frac.numerator : ℚ) * (depth : ℚ) / (frac.denominator : ℚ) + 1 / 2⌋ ∧
    Row.round_ties_down_frac frac depth =
      ⌈(frac.numerator : ℚ) * (depth : ℚ) / (frac.denominator : ℚ) - 1 / 2⌉ := by
  have hden2 : (0 : Int) < frac.denominator * 2 := by omega
  have hdenQ : (frac.denominator : ℚ) ≠ 0 := by
    exact_mod_cast hden.ne.symm
  constructor
  · unfold Row.round_ties_up_frac div_floor
    rw [← floor_intCast_div _ _ hden2]
    congr 1
    push_cast
    field_simp
  · unfold Row.round_ties_down_frac
    rw [← ceil_intCast_div _ _ hden2]
    congr 1
    push_cast
    field_simp

/-- Witness for C8 at `frac = -3/2`, `depth = 5`. -/
theorem round_ties_exact_witness :
    (0 : Int) < 2 ∧ (1 : Int) ≤ 5 ∧
    (Row.round_ties_up_frac (Fraction.new (-3) 2) 5 =
        ⌊((-3 : Int) : ℚ) * ((5 : Int) : ℚ) / ((2 : Int) : ℚ) + 1 / 2⌋ ∧
      Row.round_ties_down_frac (Fraction.new (-3) 2) 5 =
        ⌈((-3 : Int) : ℚ) * ((5 : Int) : ℚ) / ((2 : Int) : ℚ) - 1 / 2⌉) :=
  ⟨by norm_num, by norm_num, round_ties_exact (Fraction.new (-3) 2) 5 (by decide) (by decide)⟩

/-! ### C1: the origin is always visible -/

/-- C1: for every opacity predicate and every `max_radius ≥ 0`, the origin is
among the marked coordinates — it is marked unconditionally, even for
`max_radius = 0`. -/
theorem origin_mem_compute_fov (origin : Point) (max_radius : Int)
    (is_blocking : Point → Bool) (h : 0 ≤ max_radius) :
    origin ∈ compute_fov origin max_radius is_blocking := by
  unfold compute_fov
  exact List.mem_cons_self _ _

/-- Witness for C1 at `origin = (0,0)`, `max_radius = 0`. -/
theorem origin_mem_compute_fov_witness :
    (0 : Int) ≤ 0 ∧ Point.new 0 0 ∈ compute_fov (Point.new 0 0) 0 (fun _ => false) :=
  ⟨le_refl 0, origin_mem_compute_fov (Point.new 0 0) 0 (fun _ => false) (le_refl 0)⟩

/-! ### C10: Fraction construction is unchecked -/

/-- C10 counterexample: `Fraction::new(1, 0)` returns the ordinary value
`{numerator := 1, denominator := 0}` — there is no assertion or rejection —
and that value is silently used by later comparisons. -/
theorem fraction_new_zero_den_counterexample :
    Fraction.new 1 0 = { numerator := 1, denominator := 0 } ∧
    (Fraction.new 1 0).greater_equal (Fraction.new 1 2) = true := by
  exact ⟨rfl, by decide⟩

/-- C10 amended: `Fraction::new` performs no validation at all: for every
input, including a zero denominator, it returns the ordinary `Fraction` with
exactly the given fields, and a zero-denominator value participates in later
cross-multiplication comparisons (which degenerate to a sign test). -/
theorem fraction_new_unchecked (n : Int) (f : Fraction) :
    Fraction.new n 0 = { numerator := n, denominator := 0 } ∧
    (Fraction.new n 0).greater_equal f = decide (0 ≤ n * f.denominator) := by
  refine ⟨rfl, ?_⟩
  unfold Fraction.new Fraction.greater_equal
  simp [mul_zero, ge_iff_le]

/-! ### C6: every mark lies within the inscribed circle -/

theorem scanCols_marks_dist {is_blocking : Point → Bool} {origin : Point} {q : Cardinal}
    {mrs depth : Int} {end_slope : Fraction} :
    ∀ (cols : List Int) (s : Fraction) (prev : Option Bool) (p : Point),
      p ∈ (scanCols is_blocking origin q mrs depth end_slope cols s prev).marks →
      (p.x - origin.x) * (p.x - origin.x) + (p.y - origin.y) * (p.y - origin.y) ≤ mrs := by
  intro cols
  induction cols with
  | nil => intro s prev p hp; simp [scanCols] at hp
  | cons col cols ih =>
    intro s prev p hp
    simp only [scanCols] at hp
    split at hp
    · exact ih _ _ _ hp
    · rename_i hd
      simp only [List.mem_append] at hp
      rcases hp with hp | hp
      · split at hp
        · rcases List.mem_singleton.mp hp with rfl
          omega
        · simp at hp
      · exact ih _ _ _ hp

theorem scanRows_marks_dist {is_blocking : Point → Bool} {origin : Point} {q : Cardinal}
    {max_radius mrs : Int} :
    ∀ (gas : Nat) (row : Row) (p : Point),
      p ∈ scanRows is_blocking origin q max_radius mrs gas row →
      (p.x - origin.x) * (p.x - origin.x) + (p.y - origin.y) * (p.y - origin.y) ≤ mrs := by
  intro gas
  induction gas with
  | zero => intro row p hp; simp [scanRows] at hp
  | succ gas ih =>
    intro row p hp
    simp only [scanRows] at hp
    split at hp
    · simp at hp
    · simp only [List.mem_append, List.mem_flatten, List.mem_map] at hp
      rcases hp with hp | ⟨l, ⟨child, _, rfl⟩, hp⟩
      · exact scanCols_marks_dist _ _ _ _ hp
      · exact ih child p hp

/-- C6: every coordinate passed to `mark_visible` by `compute_fov` satisfies
`(p.x - origin.x)² + (p.y - origin.y)² ≤ max_radius²`; no coordinate outside
the inscribed circle is ever marked. -/
theorem compute_fov_marks_within_radius (origin : Point) (max_radius : Int)
    (is_blocking : Point → Bool) (h : 0 ≤ max_radius) :
    ∀ p ∈ compute_fov origin max_radius is_blocking,
      (p.x - origin.x) * (p.x - origin.x) + (p.y - origin.y) * (p.y - origin.y) ≤
        max_radius * max_radius := by
  intro p hp
  unfold compute_fov at hp
  rcases List.mem_cons.mp hp with rfl | hp
  · simp only [sub_self, mul_zero, add_zero]
    positivity
  · simp only [List.mem_flatten, List.mem_map] at hp
    rcases hp with ⟨l, ⟨c, _, rfl⟩, hp⟩
    exact scanRows_marks_dist _ _ _ hp

/-- Witness for C6: at `origin = (0,0)`, `radius = 1`, the mark `(1,0)`. -/
theorem compute_fov_marks_within_radius_witness :
    (0 : Int) ≤ 1 ∧
    ((Point.new 1 0).x - (Point.new 0 0).x) * ((Point.new 1 0).x - (Point.new 0 0).x) +
      ((Point.new 1 0).y - (Point.new 0 0).y) * ((Point.new 1 0).y - (Point.new 0 0).y) ≤
      1 * 1 :=
  ⟨by norm_num,
    compute_fov_marks_within_radius (Point.new 0 0) 1 (fun _ => false) (by norm_num)
      (Point.new 1 0) (by decide)⟩

/-! ### Depth bookkeeping: marks of a row tree lie at quadrant depth ≥ the root's depth -/

/-- The quadrant-local depth of an absolute point: inverts the depth
component of `Quadrant.transform`. -/
def qdepth (q : Cardinal) (origin p : Point) : Int :=
  match q with
  | .north => origin.y - p.y
  | .south => p.y - origin.y
  | .east => p.x - origin.x
  | .west => origin.x - p.x

theorem qdepth_transform (q : Cardinal) (origin : Point) (d c : Int) :
    qdepth q origin (Quadrant.transform q origin d c) = d := by
  cases q <;> simp [qdepth, Quadrant.transform, Point.new]

theorem scanCols_children_depth {is_blocking : Point → Bool} {origin : Point} {q : Cardinal}
    {mrs depth : Int} {end_slope : Fraction} :
    ∀ (cols : List Int) (s : Fraction) (prev : Option Bool) (r : Row),
      r ∈ (scanCols is_blocking origin q mrs depth end_slope cols s prev).children →
      r.depth = depth + 1 := by
  intro cols
  induction cols with
  | nil => intro s prev r hr; simp [scanCols] at hr
  | cons col cols ih =>
    intro s prev r hr
    simp only [scanCols] at hr
    split at hr
    · exact ih _ _ _ hr
    · simp only [List.mem_append] at hr
      rcases hr with hr | hr
      · rcases prev with _ | pb
        · simp at hr
        · simp only at hr
          split at hr
          · rcases List.mem_singleton.mp hr with rfl
            rfl
          · simp at hr
      · exact ih _ _ _ hr

theorem scanCols_marks_qdepth {is_blocking : Point → Bool} {origin : Point} {q : Cardinal}
    {mrs depth : Int} {end_slope : Fraction} :
    ∀ (cols : List Int) (s : Fraction) (prev : Option Bool) (p : Point),
      p ∈ (scanCols is_blocking origin q mrs depth end_slope cols s prev).marks →
      qdepth q origin p = depth := by
  intro cols
  induction cols with
  | nil => intro s prev p hp; simp [scanCols] at hp
  | cons col cols ih =>
    intro s prev p hp
    simp only [scanCols] at hp
    split at hp
    · exact ih _ _ _ hp
    · simp only [List.mem_append] at hp
      rcases hp with hp | hp
      · split at hp
        · rcases List.mem_singleton.mp hp with rfl
          exact qdepth_transform q origin depth col
        · simp at hp
      · exact ih _ _ _ hp

theorem scanRows_marks_qdepth {is_blocking : Point → Bool} {origin : Point} {q : Cardinal}
    {max_radius mrs : Int} :
    ∀ (gas : Nat) (row : Row) (p : Point),
      p ∈ scanRows is_blocking origin q max_radius mrs gas row →
      row.depth ≤ qdepth q origin p := by
  intro gas
  induction gas with
  | zero => intro row p hp; simp [scanRows] at hp
  | succ gas ih =>
    intro row p hp
    simp only [scanRows] at hp
    split at hp
    · simp at hp
    · simp only [List.mem_append, List.mem_flatten, List.mem_map] at hp
      rcases hp with hp | ⟨l, ⟨child, hchild, rfl⟩, hp⟩
      · exact le_of_eq (scanCols_marks_qdepth _ _ _ _ hp).symm
      · have hd : child.depth = row.depth + 1 := by
          rcases List.mem_append.mp hchild with hc | hc
          · exact scanCols_children_depth _ _ _ _ hc
          · split at hc
            · rcases List.mem_singleton.mp hc with rfl
              rfl
            · simp at hc
        have := ih child p hp
        omega

/-! ### C9 (corrected): the callback can hit a shared diagonal twice, but the origin exactly once -/

/-- C9 counterexample: at origin `(0,0)`, radius 2, all-transparent map, the
diagonal coordinate `(1,1)` is passed to `mark_visible` twice — once from
the south quadrant and once from the east quadrant — refuting
"no coordinate is passed to the callback more than once in a single call". -/
theorem compute_fov_duplicate_mark_counterexample :
    (compute_fov (Point.new 0 0) 2 (fun _ => false)).count (Point.new 1 1) = 2 := by
  decide

/-- C9 amended: `compute_fov` invokes `mark_visible` at least once per visible
coordinate and exactly once with the origin; a coordinate shared between two
adjacent quadrants (a diagonal) may be passed up to twice.  Proved here: the
origin is passed exactly once, for every origin, radius and opacity predicate
(every non-origin mark lies at quadrant depth ≥ 1 in its quadrant, while the
origin has quadrant depth 0). -/
theorem compute_fov_origin_marked_once (origin : Point) (max_radius : Int)
    (is_blocking : Point → Bool) :
    (compute_fov origin max_radius is_blocking).count origin = 1 := by
  unfold compute_fov
  rw [List.count_cons_self]
  have horigin : origin ∉
      (([Cardinal.north, Cardinal.south, Cardinal.east, Cardinal.west].map
        (fun c =>
          scanRows is_blocking origin c max_radius (max_radius * max_radius)
            (max_radius.toNat + 1)
            (Row.new 1 (Fraction.new (-1) 1) (Fraction.new 1 1)))).flatten) := by
    intro hmem
    simp only [List.mem_flatten, List.mem_map] at hmem
    rcases hmem with ⟨l, ⟨c, _, rfl⟩, hp⟩
    have h1 := scanRows_marks_qdepth _ _ _ hp
    have h0 : qdepth c origin origin = 0 := by
      cases c <;> simp [qdepth]
    rw [h0] at h1
    exact absurd h1 (by norm_num [Row.new])
  rw [List.count_eq_zero.mpr horigin]

/-! ### C7: `compute_fov_circle` marks exactly the integer points of the closed disk -/

/-- One arithmetic step of Newton's method stays at or above the integer
square root. -/
theorem newton_step_ge_sqrt {g x s : Int} (hg : 1 ≤ g) (hs : 0 ≤ s) (hsx : s * s ≤ x) :
    s ≤ (g + x / g) / 2 := by
  have h1 : (2 * s - g) * g ≤ x := by nlinarith [sq_nonneg (s - g)]
  have h2 : 2 * s - g ≤ x / g := (Int.le_ediv_iff_mul_le (by omega)).mpr h1
  exact (Int.le_ediv_iff_mul_le (by omega)).mpr (by omega)

theorem isqrt_loop_correct (x s : Int) (hs1 : 1 ≤ s)
    (hs2 : s * s ≤ x) (hs3 : x < (s + 1) * (s + 1)) :
    ∀ (fuel : Nat) (guess : Int), s ≤ guess → guess.toNat ≤ fuel →
      isqrt_loop x fuel guess ((guess + x / guess) / 2) = s := by
  intro fuel
  induction fuel with
  | zero => intro guess hsg hfuel; omega
  | succ fuel ih =>
    intro guess hsg hfuel
    have hg1 : 1 ≤ guess := le_trans hs1 hsg
    have hr : s ≤ (guess + x / guess) / 2 :=
      newton_step_ge_sqrt hg1 (by omega) hs2
    rw [isqrt_loop]
    split
    · rename_i hlt
      exact ih ((guess + x / guess) / 2) hr (by omega)
    · rename_i hge
      push_neg at hge
      have hq : guess ≤ x / guess := by
        have := (Int.le_ediv_iff_mul_le (c := 2) (by omega)).mp hge
        omega
      have hgx : guess * guess ≤ x := (Int.le_ediv_iff_mul_le (by omega)).mp hq
      nlinarith

/-- `isqrt` computes the integer square root: the largest `n ≥ 0` with `n·n ≤ x`. -/
theorem isqrt_spec (x : Int) (hx : 0 ≤ x) :
    0 ≤ isqrt x ∧ isqrt x * isqrt x ≤ x ∧ x < (isqrt x + 1) * (isqrt x + 1) := by
  unfold isqrt
  rcases lt_or_le x 2 with hsmall | hbig
  · interval_cases x
    · norm_num
    · norm_num
  · rw [if_neg (by omega), if_neg (by omega)]
    obtain ⟨s, hs1, hs2, hs3⟩ : ∃ s : Int, 1 ≤ s ∧ s * s ≤ x ∧ x < (s + 1) * (s + 1) := by
      have hle := Nat.sqrt_le x.toNat
      have hlt := Nat.lt_succ_sqrt x.toNat
      zify at hle hlt
      rw [Int.toNat_of_nonneg hx] at hle hlt
      refine ⟨(Nat.sqrt x.toNat : Int), ?_, hle, by push_cast at hlt ⊢; omega⟩
      by_contra hc
      push_neg at hc
      have h0 : Nat.sqrt x.toNat = 0 := by omega
      rw [h0] at hlt
      norm_num at hlt
      omega
    have hinit : (x + 1) / 2 = (x + x / x) / 2 := by
      rw [Int.ediv_self (by omega : x ≠ 0)]
    rw [hinit, isqrt_loop_correct x s hs1 hs2 hs3 x.toNat x (by nlinarith) (le_refl _)]
    exact ⟨by omega, hs2, hs3⟩

/-- Characterization used for disk membership: for `v, x ≥ 0`,
`v ≤ isqrt x ↔ v·v ≤ x`. -/
theorem le_isqrt_iff {v x : Int} (hv : 0 ≤ v) (hx : 0 ≤ x) :
    v ≤ isqrt x ↔ v * v ≤ x := by
  obtain ⟨h0, h1, h2⟩ := isqrt_spec x hx
  constructor
  · intro h
    nlinarith
  · intro h
    nlinarith

/-- Membership characterization of `compute_fov_circle`: the exact integer
disk of the given radius, translated to the origin. -/
theorem mem_compute_fov_circle_iff (origin : Point) (radius : Int) (hr : 0 ≤ radius)
    (p : Point) : p ∈ compute_fov_circle origin radius ↔
      ∃ dx dy : Int, dx * dx + dy * dy ≤ radius * radius ∧
        p = Point.new (origin.x + dx) (origin.y + dy) := by
  unfold compute_fov_circle
  simp only [List.mem_flatten, List.mem_map]
  constructor
  · rintro ⟨l, ⟨dy, hdy, rfl⟩, hp⟩
    rcases List.mem_map.mp hp with ⟨dx, hdx, rfl⟩
    rw [mem_rangeInts] at hdy hdx
    have hdy2 : dy * dy ≤ radius * radius := by nlinarith [hdy.1, hdy.2]
    have hmdx0 : 0 ≤ radius * radius - dy * dy := by omega
    obtain ⟨hq0, hq1, hq2⟩ := isqrt_spec (radius * radius - dy * dy) hmdx0
    refine ⟨dx, dy, ?_, rfl⟩
    nlinarith [hdx.1, hdx.2]
  · rintro ⟨dx, dy, hle, rfl⟩
    have hdy2 : dy * dy ≤ radius * radius := by nlinarith
    have hdybound : -radius ≤ dy ∧ dy ≤ radius := by
      constructor <;> nlinarith
    have hmdx0 : 0 ≤ radius * radius - dy * dy := by omega
    have habs : |dx| ≤ isqrt (radius * radius - dy * dy) := by
      rw [le_isqrt_iff (abs_nonneg dx) hmdx0]
      have : |dx| * |dx| = dx * dx := abs_mul_abs_self dx
      omega
    refine ⟨_, ⟨dy, mem_rangeInts.mpr hdybound, rfl⟩, ?_⟩
    refine List.mem_map.mpr ⟨dx, mem_rangeInts.mpr ?_, rfl⟩
    rcases abs_le.mp habs with ⟨h1, h2⟩
    exact ⟨by omega, h2⟩

/-- C7: for every origin and every `radius ≥ 0`, the coordinates marked by
`compute_fov_circle` are exactly the translates of the integer vectors
inside the Euclidean disk of the given radius, with no opacity input. -/
theorem compute_fov_circle_char (origin : Point) (radius : Int) (hr : 0 ≤ radius) :
    ∀ p : Point, p ∈ compute_fov_circle origin radius ↔
      ∃ dx dy : Int, dx * dx + dy * dy ≤ radius * radius ∧
        p = Point.new (origin.x + dx) (origin.y + dy) :=
  fun p => mem_compute_fov_circle_iff origin radius hr p

/-- Witness for C7 at `origin = (0,0)`, `radius = 2`, `p = (1,1)`. -/
theorem compute_fov_circle_char_witness :
    (0 : Int) ≤ 2 ∧
    (Point.new 1 1 ∈ compute_fov_circle (Point.new 0 0) 2 ↔
      ∃ dx dy : Int, dx * dx + dy * dy ≤ 2 * 2 ∧
        Point.new 1 1 = Point.new ((Point.new 0 0).x + dx) ((Point.new 0 0).y + dy)) :=
  ⟨by norm_num, compute_fov_circle_char (Point.new 0 0) 2 (by norm_num) (Point.new 1 1)⟩

/-! ### Translation invariance on an all-transparent map -/

/-- Translation by an origin. -/
def ptAdd (origin p : Point) : Point :=
  Point.new (p.x + origin.x) (p.y + origin.y)

theorem transform_translate (q : Cardinal) (origin : Point) (d c : Int) :
    Quadrant.transform q origin d c = ptAdd origin (Quadrant.transform q (Point.new 0 0) d c) := by
  cases q <;> simp [Quadrant.transform, ptAdd, Point.new] <;> ring_nf <;> constructor <;> ring

theorem transform_dx_invariant (q : Cardinal) (origin : Point) (d c : Int) :
    (Quadrant.transform q origin d c).x - origin.x =
      (Quadrant.transform q (Point.new 0 0) d c).x - (Point.new 0 0).x ∧
    (Quadrant.transform q origin d c).y - origin.y =
      (Quadrant.transform q (Point.new 0 0) d c).y - (Point.new 0 0).y := by
  cases q <;> simp [Quadrant.transform, Point.new] <;> ring_nf <;> simp

theorem scanCols_translate (origin : Point) (q : Cardinal) (mrs depth : Int)
    (end_slope : Fraction) :
    ∀ (cols : List Int) (s : Fraction) (prev : Option Bool),
      (scanCols (fun _ => false) origin q mrs depth end_slope cols s prev).marks =
        ((scanCols (fun _ => false) (Point.new 0 0) q mrs depth end_slope cols s prev).marks).map
          (ptAdd origin) ∧
      (scanCols (fun _ => false) origin q mrs depth end_slope cols s prev).children =
        (scanCols (fun _ => false) (Point.new 0 0) q mrs depth end_slope cols s prev).children ∧
      (scanCols (fun _ => false) origin q mrs depth end_slope cols s prev).start_slope =
        (scanCols (fun _ => false) (Point.new 0 0) q mrs depth end_slope cols s prev).start_slope ∧
      (scanCols (fun _ => false) origin q mrs depth end_slope cols s prev).prev =
        (scanCols (fun _ => false) (Point.new 0 0) q mrs depth end_slope cols s prev).prev := by
  intro cols
  induction cols with
  | nil => intro s prev; simp [scanCols]
  | cons col cols ih =>
    intro s prev
    obtain ⟨hdx, hdy⟩ := transform_dx_invariant q origin depth col
    simp only [scanCols, hdx, hdy]
    split
    · exact ih _ _
    · obtain ⟨h1, h2, h3, h4⟩ := ih (match prev with
        | some prev_blocking => if prev_blocking && !false then Row.slope col depth else s
        | none => s) (some false)
      refine ⟨?_, ?_, h3, h4⟩
      · simp only [List.map_append, h1]
        congr 1
        split
        · simp [transform_translate q origin depth col]
        · simp
      · simp only [h2]

theorem scanRows_translate (q : Cardinal) (max_radius mrs : Int) :
    ∀ (gas : Nat) (row : Row) (origin : Point),
      scanRows (fun _ => false) origin q max_radius mrs gas row =
        (scanRows (fun _ => false) (Point.new 0 0) q max_radius mrs gas row).map
          (ptAdd origin) := by
  intro gas
  induction gas with
  | zero => intro row origin; simp [scanRows]
  | succ gas ih =>
    intro row origin
    simp only [scanRows]
    split
    · simp
    · obtain ⟨h1, h2, h3, h4⟩ := scanCols_translate origin q mrs row.depth row.end_slope
        row.tiles row.start_slope none
      have hmap : ∀ C : List Row,
          ((C.map (scanRows (fun _ => false) origin q max_radius mrs gas)).flatten) =
            ((C.map (scanRows (fun _ => false) (Point.new 0 0) q max_radius mrs gas)).flatten).map
              (ptAdd origin) := by
        intro C
        induction C with
        | nil => simp
        | cons c cs ihc =>
          simp only [List.map_cons, List.flatten_cons, List.map_append, ihc, ih c origin]
      simp only [processRow, h1, h2, h3, h4, List.flatten_append, List.map_append,
        List.append_assoc, hmap]

/-- On an all-transparent map, `compute_fov` commutes with translation of the
origin. -/
theorem compute_fov_translate (origin : Point) (max_radius : Int) :
    compute_fov origin max_radius (fun _ => false) =
      (compute_fov (Point.new 0 0) max_radius (fun _ => false)).map (ptAdd origin) := by
  unfold compute_fov
  simp only [List.map_cons, List.map_nil, List.flatten_cons, List.flatten_nil,
    List.append_nil, List.map_append]
  rw [scanRows_translate Cardinal.north max_radius (max_radius * max_radius) _ _ origin,
    scanRows_translate Cardinal.south max_radius (max_radius * max_radius) _ _ origin,
    scanRows_translate Cardinal.east max_radius (max_radius * max_radius) _ _ origin,
    scanRows_translate Cardinal.west max_radius (max_radius * max_radius) _ _ origin]
  simp only [ptAdd, Point.new]
  norm_num

/-- `compute_fov_circle` commutes with translation of the origin. -/
theorem compute_fov_circle_translate (origin : Point) (radius : Int) :
    compute_fov_circle origin radius =
      (compute_fov_circle (Point.new 0 0) radius).map (ptAdd origin) := by
  simp only [compute_fov_circle]
  rw [List.map_flatten, List.map_map]
  congr 1
  apply List.map_congr_left
  intro dy _
  simp only [Function.comp_apply, List.map_map]
  apply List.map_congr_left
  intro dx _
  simp only [Function.comp_apply, ptAdd, Point.new, Point.mk.injEq]
  omega

theorem ptAdd_injective (origin : Point) : Function.Injective (ptAdd origin) := by
  intro p1 p2 h
  cases p1
  cases p2
  simp only [ptAdd, Point.new, Point.mk.injEq] at h ⊢
  omega

theorem mem_map_ptAdd {origin p : Point} {l : List Point} :
    p ∈ l.map (ptAdd origin) ↔ Point.new (p.x - origin.x) (p.y - origin.y) ∈ l := by
  constructor
  · rintro h
    rcases List.mem_map.mp h with ⟨p0, hp0, rfl⟩
    simpa [ptAdd, Point.new] using hp0
  · intro h
    refine List.mem_map.mpr ⟨_, h, ?_⟩
    simp [ptAdd, Point.new]

/-! ### C3 (corrected): 49 cells, but the Euclidean disk, not the Chebyshev square -/

/-- C3 counterexample: `(4,4)` lies in the Chebyshev-distance-4 square around
origin `(0,0)` (`|dx| ≤ 4` and `|dy| ≤ 4`), yet it is NOT marked by
`compute_fov((0,0), 4, always_transparent)`: its squared Euclidean distance
is 32 > 4² = 16, so the distance cutoff skips it.  The marked set is not the
9×9 Chebyshev block. -/
theorem open_room_chebyshev_counterexample :
    ((Point.new 4 4).x - (Point.new 0 0).x).natAbs ≤ 4 ∧
    ((Point.new 4 4).y - (Point.new 0 0).y).natAbs ≤ 4 ∧
    Point.new 4 4 ∉ compute_fov (Point.new 0 0) 4 (fun _ => false) := by
  refine ⟨by decide, by decide, by decide⟩

theorem open_room_disk_zero :
    ∀ p : Point, p ∈ compute_fov (Point.new 0 0) 4 (fun _ => false) ↔
      p.x * p.x + p.y * p.y ≤ 16 := by
  have hsub : ∀ p ∈ compute_fov_circle (Point.new 0 0) 4,
      p ∈ compute_fov (Point.new 0 0) 4 (fun _ => false) := by decide
  intro p
  constructor
  · intro hp
    have := compute_fov_marks_within_radius (Point.new 0 0) 4 (fun _ => false)
      (by norm_num) p hp
    simpa [Point.new] using this
  · intro hp
    refine hsub p ?_
    refine (compute_fov_circle_char (Point.new 0 0) 4 (by norm_num) p).mpr
      ⟨p.x, p.y, by omega, ?_⟩
    cases p
    simp [Point.new]

/-- C3 amended: for every origin, the set of distinct coordinates marked by
`compute_fov(origin, 4, always_transparent)` has exactly 49 elements and is
the EUCLIDEAN disk of radius 4 around origin (all `p` with
`(p.x−origin.x)² + (p.y−origin.y)² ≤ 16`) — not the Chebyshev-distance-4
square, whose corners lie outside the inscribed circle. -/
theorem open_room_disk_49 (origin : Point) :
    (compute_fov origin 4 (fun _ => false)).dedup.length = 49 ∧
    ∀ p : Point, p ∈ compute_fov origin 4 (fun _ => false) ↔
      (p.x - origin.x) * (p.x - origin.x) + (p.y - origin.y) * (p.y - origin.y) ≤ 16 := by
  rw [compute_fov_translate]
  constructor
  · rw [List.dedup_map_of_injective (ptAdd_injective origin), List.length_map]
    decide
  · intro p
    rw [mem_map_ptAdd, open_room_disk_zero]
    simp [Point.new]

/-! ### Row invariants: slopes stay within [-1, 1], columns within [-depth, depth] -/

/-- Squared distance from the origin of a transformed tile is `d² + c²`. -/
theorem transform_dist (q : Cardinal) (origin : Point) (d c : Int) :
    ((Quadrant.transform q origin d c).x - origin.x) *
        ((Quadrant.transform q origin d c).x - origin.x) +
      ((Quadrant.transform q origin d c).y - origin.y) *
        ((Quadrant.transform q origin d c).y - origin.y) = d * d + c * c := by
  cases q <;> simp [Quadrant.transform, Point.new] <;> ring

/-- Invariant of every row arising in a quadrant scan: depth ≥ 1, positive
slope denominators, `start_slope ≥ -1` and `end_slope ≤ 1` as exact
rationals (stated via cross-multiplication). -/
def RowInv (row : Row) : Prop :=
  1 ≤ row.depth ∧
  0 < row.start_slope.denominator ∧ 0 < row.end_slope.denominator ∧
  -row.start_slope.denominator ≤ row.start_slope.numerator ∧
  row.end_slope.numerator ≤ row.end_slope.denominator

theorem round_ties_up_ge {s : Fraction} {d : Int} (hden : 0 < s.denominator)
    (hnum : -s.denominator ≤ s.numerator) (hd : 1 ≤ d) :
    -d ≤ Row.round_ties_up_frac s d := by
  unfold Row.round_ties_up_frac div_floor
  rw [Int.fdiv_eq_ediv _ (by positivity)]
  rw [Int.le_ediv_iff_mul_le (by positivity)]
  nlinarith

theorem round_ties_down_le {e : Fraction} {d : Int} (hden : 0 < e.denominator)
    (hnum : e.numerator ≤ e.denominator) (hd : 1 ≤ d) :
    Row.round_ties_down_frac e d ≤ d := by
  show -Int.fdiv (-(e.numerator * d * 2 - e.denominator)) (e.denominator * 2) ≤ d
  have h2 : -d ≤ Int.fdiv (-(e.numerator * d * 2 - e.denominator)) (e.denominator * 2) := by
    rw [Int.fdiv_eq_ediv _ (by positivity), Int.le_ediv_iff_mul_le (by positivity)]
    nlinarith
  omega

theorem tiles_col_bounds {row : Row} (hinv : RowInv row) :
    ∀ c ∈ row.tiles, -row.depth ≤ c ∧ c ≤ row.depth := by
  obtain ⟨hd, hs, he, hsn, hen⟩ := hinv
  intro c hc
  rw [Row.tiles, mem_rangeInts] at hc
  have h1 := round_ties_up_ge hs hsn hd
  have h2 := round_ties_down_le he hen hd
  omega

theorem rangeInts_pairwise (lo hi : Int) : (rangeInts lo hi).Pairwise (· < ·) := by
  unfold rangeInts
  rw [List.pairwise_map]
  exact (List.pairwise_lt_range _).imp (fun h => by omega)

/-- Through the column sweep: the running `start_slope` keeps its bounds, and
every pushed child row satisfies `RowInv` at depth `d + 1`. -/
theorem scanCols_inv (is_blocking : Point → Bool) (origin : Point) (q : Cardinal)
    (mrs : Int) (d : Int) (e : Fraction) (hd : 1 ≤ d) :
    ∀ (cols : List Int) (s : Fraction) (prev : Option Bool),
      0 < s.denominator → -s.denominator ≤ s.numerator →
      (∀ c ∈ cols, -d ≤ c ∧ c ≤ d) →
      cols.Pairwise (· < ·) →
      (prev = none ∨ ∀ c ∈ cols, -d + 1 ≤ c) →
      (0 < (scanCols is_blocking origin q mrs d e cols s prev).start_slope.denominator ∧
        -(scanCols is_blocking origin q mrs d e cols s prev).start_slope.denominator ≤
          (scanCols is_blocking origin q mrs d e cols s prev).start_slope.numerator) ∧
      ∀ r ∈ (scanCols is_blocking origin q mrs d e cols s prev).children,
        r.depth = d + 1 ∧ 0 < r.start_slope.denominator ∧
          -r.start_slope.denominator ≤ r.start_slope.numerator ∧
          0 < r.end_slope.denominator ∧ r.end_slope.numerator ≤ r.end_slope.denominator := by
  intro cols
  induction cols with
  | nil =>
    intro s prev hs1 hs2 _ _ _
    exact ⟨⟨hs1, hs2⟩, by simp [scanCols]⟩
  | cons col cols ih =>
    intro s prev hs1 hs2 hbounds hpair hprev
    have hcol : -d ≤ col ∧ col ≤ d := hbounds col (List.mem_cons_self _ _)
    have hbounds2 : ∀ c ∈ cols, -d ≤ c ∧ c ≤ d := fun c hc =>
      hbounds c (List.mem_cons_of_mem _ hc)
    have hpair2 : cols.Pairwise (· < ·) := (List.pairwise_cons.mp hpair).2
    have hgt : ∀ c ∈ cols, col < c := (List.pairwise_cons.mp hpair).1
    have htail : ∀ c ∈ cols, -d + 1 ≤ c := fun c hc => by
      have h1 := hgt c hc
      have h2 := hcol.1
      omega
    rcases prev with _ | pb
    · -- prev = none: no transition can fire at this column
      simp only [scanCols]
      split
      · exact ih s none hs1 hs2 hbounds2 hpair2 (Or.inl rfl)
      · have hrest := ih s (some (is_blocking (Quadrant.transform q origin d col)))
          hs1 hs2 hbounds2 hpair2 (Or.inr htail)
        refine ⟨hrest.1, ?_⟩
        intro r hr
        simp only [List.nil_append] at hr
        exact hrest.2 r hr
    · -- prev = some pb
      have hlow : -d + 1 ≤ col := by
        rcases hprev with h | h
        · exact absurd h (by simp)
        · exact h col (List.mem_cons_self _ _)
      have hslope1 : 0 < (Row.slope col d).denominator := by
        simp only [Row.slope, Fraction.new]
        omega
      have hslope2 : -(Row.slope col d).denominator ≤ (Row.slope col d).numerator := by
        simp only [Row.slope, Fraction.new]
        omega
      have hchild : ∀ r : Row, r = Row.new (d + 1) s (Row.slope col d) →
          r.depth = d + 1 ∧ 0 < r.start_slope.denominator ∧
            -r.start_slope.denominator ≤ r.start_slope.numerator ∧
            0 < r.end_slope.denominator ∧ r.end_slope.numerator ≤ r.end_slope.denominator := by
        rintro r rfl
        refine ⟨rfl, hs1, hs2, hslope1, ?_⟩
        simp only [Row.new, Row.slope, Fraction.new]
        have := hcol.2
        omega
      cases hpb : pb <;> cases hblk : is_blocking (Quadrant.transform q origin d col) <;>
        simp only [scanCols, hblk, Bool.not_false, Bool.not_true, Bool.and_false, Bool.and_true,
          Bool.false_and, Bool.true_and, Bool.false_eq_true, Bool.true_eq_false,
          eq_self_iff_true, if_true, if_false, List.nil_append] <;>
        split
      -- (pb = false, blocking = false, skipped)
      · exact ih s _ hs1 hs2 hbounds2 hpair2 (Or.inr htail)
      · exact ih s _ hs1 hs2 hbounds2 hpair2 (Or.inr htail)
      -- (pb = false, blocking = true): push fires
      · exact ih s _ hs1 hs2 hbounds2 hpair2 (Or.inr htail)
      · have hrest := ih s (some true) hs1 hs2 hbounds2 hpair2 (Or.inr htail)
        refine ⟨hrest.1, ?_⟩
        intro r hr
        rcases List.mem_cons.mp hr with rfl | hr
        · exact hchild _ rfl
        · exact hrest.2 r hr
      -- (pb = true, blocking = false): start update fires
      · exact ih s _ hs1 hs2 hbounds2 hpair2 (Or.inr htail)
      · exact ih (Row.slope col d) _ hslope1 hslope2 hbounds2 hpair2 (Or.inr htail)
      -- (pb = true, blocking = true)
      · exact ih s _ hs1 hs2 hbounds2 hpair2 (Or.inr htail)
      · exact ih s _ hs1 hs2 hbounds2 hpair2 (Or.inr htail)

/-- Every child spawned by processing a row that satisfies `RowInv`
satisfies `RowInv` at the next depth. -/
theorem processRow_children_inv (is_blocking : Point → Bool) (origin : Point) (q : Cardinal)
    (mrs : Int) (row : Row) (hinv : RowInv row) :
    ∀ r ∈ (processRow is_blocking origin q mrs row).2, RowInv r ∧ r.depth = row.depth + 1 := by
  obtain ⟨hd, hs1, he1, hs2, he2⟩ := hinv
  have hmain := scanCols_inv is_blocking origin q mrs row.depth row.end_slope hd
    row.tiles row.start_slope none hs1 hs2 (tiles_col_bounds ⟨hd, hs1, he1, hs2, he2⟩)
    (rangeInts_pairwise _ _) (Or.inl rfl)
  intro r hr
  simp only [processRow, List.mem_append] at hr
  rcases hr with hr | hr
  · obtain ⟨hdep, h1, h2, h3, h4⟩ := hmain.2 r hr
    exact ⟨⟨by omega, h1, h3, h2, h4⟩, hdep⟩
  · split at hr
    · rcases List.mem_singleton.mp hr with rfl
      constructor
      · unfold RowInv
        simp only [Row.new]
        exact ⟨by omega, hmain.1.1, he1, hmain.1.2, he2⟩
      · simp [Row.new]
    · simp at hr

/-- If no column of the sweep is cut off by either radius, the sweep is
identical under both squared radii. -/
theorem scanCols_mrs_eq (is_blocking : Point → Bool) (origin : Point) (q : Cardinal)
    (mrs₁ mrs₂ d : Int) (e : Fraction) :
    ∀ (cols : List Int) (s : Fraction) (prev : Option Bool),
      (∀ c ∈ cols, d * d + c * c ≤ mrs₁ ∧ d * d + c * c ≤ mrs₂) →
      scanCols is_blocking origin q mrs₁ d e cols s prev =
        scanCols is_blocking origin q mrs₂ d e cols s prev := by
  intro cols
  induction cols with
  | nil => intro s prev _; rfl
  | cons col cols ih =>
    intro s prev hno
    have hc := hno col (List.mem_cons_self _ _)
    have hdist := transform_dist q origin d col
    have hd1 : ¬(((Quadrant.transform q origin d col).x - origin.x) *
          ((Quadrant.transform q origin d col).x - origin.x) +
        ((Quadrant.transform q origin d col).y - origin.y) *
          ((Quadrant.transform q origin d col).y - origin.y) > mrs₁) := by
      rw [hdist]; omega
    have hd2 : ¬(((Quadrant.transform q origin d col).x - origin.x) *
          ((Quadrant.transform q origin d col).x - origin.x) +
        ((Quadrant.transform q origin d col).y - origin.y) *
          ((Quadrant.transform q origin d col).y - origin.y) > mrs₂) := by
      rw [hdist]; omega
    have hno' : ∀ c ∈ cols, d * d + c * c ≤ mrs₁ ∧ d * d + c * c ≤ mrs₂ :=
      fun c hc2 => hno c (List.mem_cons_of_mem _ hc2)
    simp only [scanCols, if_neg hd1, if_neg hd2]
    rw [ih _ _ hno']

/-- A row whose columns are all inside both radii processes identically. -/
theorem processRow_mrs_eq (is_blocking : Point → Bool) (origin : Point) (q : Cardinal)
    (mrs₁ mrs₂ : Int) (row : Row) (hinv : RowInv row)
    (hno : ∀ c : Int, -row.depth ≤ c → c ≤ row.depth →
      row.depth * row.depth + c * c ≤ mrs₁ ∧ row.depth * row.depth + c * c ≤ mrs₂) :
    processRow is_blocking origin q mrs₁ row = processRow is_blocking origin q mrs₂ row := by
  unfold processRow
  rw [scanCols_mrs_eq is_blocking origin q mrs₁ mrs₂ row.depth row.end_slope row.tiles
    row.start_slope none (fun c hc => hno c (tiles_col_bounds hinv c hc).1
      (tiles_col_bounds hinv c hc).2)]

/-- Agreement of two scans on marks at quadrant depth ≤ D, when both radii
cover depth D entirely: the row trees coincide down to depth D and deeper
rows mark only deeper coordinates. -/
theorem scanRows_agree (is_blocking : Point → Bool) (origin : Point) (q : Cardinal)
    (D R₁ R₂ mrs₁ mrs₂ : Int) (hD1 : D ≤ R₁) (hD2 : D ≤ R₂)
    (hno : ∀ d c : Int, 1 ≤ d → d ≤ D → -d ≤ c → c ≤ d →
      d * d + c * c ≤ mrs₁ ∧ d * d + c * c ≤ mrs₂) :
    ∀ (gas₁ gas₂ : Nat) (row : Row), RowInv row →
      R₁ < row.depth + gas₁ → R₂ < row.depth + gas₂ →
      ∀ p : Point, qdepth q origin p ≤ D →
        (p ∈ scanRows is_blocking origin q R₁ mrs₁ gas₁ row ↔
          p ∈ scanRows is_blocking origin q R₂ mrs₂ gas₂ row) := by
  intro gas₁
  induction gas₁ with
  | zero =>
    intro gas₂ row hinv hg₁ hg₂ p hp
    by_cases hdeep : D < row.depth
    · constructor
      · intro h; simp [scanRows] at h
      · intro h
        have := scanRows_marks_qdepth gas₂ row p h
        omega
    · exact absurd hg₁ (by omega)
  | succ gas₁ ih =>
    intro gas₂ row hinv hg₁ hg₂ p hp
    by_cases hdeep : D < row.depth
    · constructor
      · intro h
        have := scanRows_marks_qdepth (gas₁ + 1) row p h
        omega
      · intro h
        have := scanRows_marks_qdepth gas₂ row p h
        omega
    · push_neg at hdeep
      rcases gas₂ with _ | gas₂
      · exact absurd hg₂ (by omega)
      · have hconv := processRow_mrs_eq is_blocking origin q mrs₁ mrs₂ row hinv
          (fun c h1 h2 => hno row.depth c hinv.1 hdeep h1 h2)
        simp only [scanRows, if_neg (by omega : ¬row.depth > R₁),
          if_neg (by omega : ¬row.depth > R₂), hconv]
        simp only [List.mem_append, List.mem_flatten, List.mem_map]
        constructor
        · rintro (h | ⟨l, ⟨c, hc, rfl⟩, hpmem⟩)
          · exact Or.inl h
          · refine Or.inr ⟨_, ⟨c, hc, rfl⟩, ?_⟩
            obtain ⟨hcinv, hcdep⟩ := processRow_children_inv is_blocking origin q mrs₂ row
              hinv c hc
            exact (ih gas₂ c hcinv (by omega) (by omega) p hp).mp hpmem
        · rintro (h | ⟨l, ⟨c, hc, rfl⟩, hpmem⟩)
          · exact Or.inl h
          · refine Or.inr ⟨_, ⟨c, hc, rfl⟩, ?_⟩
            obtain ⟨hcinv, hcdep⟩ := processRow_children_inv is_blocking origin q mrs₂ row
              hinv c hc
            exact (ih gas₂ c hcinv (by omega) (by omega) p hp).mpr hpmem

/-- Membership of a coordinate of quadrant depth ≤ D agrees between two
`compute_fov` calls whose radii both dominate D and whose circles cover
every tile down to depth D. -/
theorem compute_fov_agree_shallow (origin p : Point) (is_blocking : Point → Bool)
    (D r₁ r₂ : Int) (hD : 0 ≤ D) (h₁ : D ≤ r₁) (h₂ : D ≤ r₂)
    (hno : ∀ d c : Int, 1 ≤ d → d ≤ D → -d ≤ c → c ≤ d →
      d * d + c * c ≤ r₁ * r₁ ∧ d * d + c * c ≤ r₂ * r₂)
    (hp : ∀ q : Cardinal, qdepth q origin p ≤ D) :
    p ∈ compute_fov origin r₁ is_blocking ↔ p ∈ compute_fov origin r₂ is_blocking := by
  have hinv : RowInv (Row.new 1 (Fraction.new (-1) 1) (Fraction.new 1 1)) := by
    unfold RowInv
    simp [Row.new, Fraction.new]
  have hq : ∀ q : Cardinal,
      (p ∈ scanRows is_blocking origin q r₁ (r₁ * r₁) (r₁.toNat + 1)
          (Row.new 1 (Fraction.new (-1) 1) (Fraction.new 1 1)) ↔
        p ∈ scanRows is_blocking origin q r₂ (r₂ * r₂) (r₂.toNat + 1)
          (Row.new 1 (Fraction.new (-1) 1) (Fraction.new 1 1))) := by
    intro q
    refine scanRows_agree is_blocking origin q D r₁ r₂ (r₁ * r₁) (r₂ * r₂) h₁ h₂ hno
      (r₁.toNat + 1) (r₂.toNat + 1) _ hinv ?_ ?_ p (hp q)
    · simp only [Row.new]
      omega
    · simp only [Row.new]
      omega
  unfold compute_fov
  simp only [List.map_cons, List.map_nil, List.flatten_cons, List.flatten_nil,
    List.append_nil, List.mem_cons, List.mem_append]
  exact or_congr Iff.rfl (or_congr (hq Cardinal.north) (or_congr (hq Cardinal.south)
    (or_congr (hq Cardinal.east) (hq Cardinal.west))))

/-! ### C2: wall occlusion is stable for every radius ≥ 10 -/

/-- C2: with origin `(5,5)`, an opacity predicate true exactly at `(7,7)`,
and any `max_radius ≥ 10`: the wall `(7,7)` itself is marked (expansive
walls), the orthogonal neighbours `(6,5)` and `(5,6)` are marked, and the
shadowed cell `(9,9)` is never marked. -/
theorem fov_wall_occlusion (r : Int) (hr : 10 ≤ r) :
    Point.new 7 7 ∈ compute_fov (Point.new 5 5) r (fun p => decide (p = Point.new 7 7)) ∧
    Point.new 6 5 ∈ compute_fov (Point.new 5 5) r (fun p => decide (p = Point.new 7 7)) ∧
    Point.new 5 6 ∈ compute_fov (Point.new 5 5) r (fun p => decide (p = Point.new 7 7)) ∧
    Point.new 9 9 ∉ compute_fov (Point.new 5 5) r (fun p => decide (p = Point.new 7 7)) := by
  have hagree : ∀ p : Point, (∀ q : Cardinal, qdepth q (Point.new 5 5) p ≤ 4) →
      (p ∈ compute_fov (Point.new 5 5) r (fun p => decide (p = Point.new 7 7)) ↔
        p ∈ compute_fov (Point.new 5 5) 10 (fun p => decide (p = Point.new 7 7))) := by
    intro p hp
    refine compute_fov_agree_shallow (Point.new 5 5) p _ 4 r 10 (by norm_num) (by omega)
      (by norm_num) ?_ hp
    intro d c h1 h2 h3 h4
    have hc2 : c * c ≤ 16 := by
      nlinarith [mul_nonneg (by omega : (0:Int) ≤ 4 - c) (by omega : (0:Int) ≤ 4 + c)]
    have hd2 : d * d ≤ 16 := by nlinarith
    have hr2 : 100 ≤ r * r := by nlinarith
    omega
  refine ⟨?_, ?_, ?_, ?_⟩
  · rw [hagree _ (by intro q; cases q <;> decide)]
    decide
  · rw [hagree _ (by intro q; cases q <;> decide)]
    decide
  · rw [hagree _ (by intro q; cases q <;> decide)]
    decide
  · rw [hagree _ (by intro q; cases q <;> decide)]
    decide

/-- Witness for C2 at `max_radius = 10`. -/
theorem fov_wall_occlusion_witness :
    (10 : Int) ≤ 10 ∧
    (Point.new 7 7 ∈ compute_fov (Point.new 5 5) 10 (fun p => decide (p = Point.new 7 7)) ∧
      Point.new 6 5 ∈ compute_fov (Point.new 5 5) 10 (fun p => decide (p = Point.new 7 7)) ∧
      Point.new 5 6 ∈ compute_fov (Point.new 5 5) 10 (fun p => decide (p = Point.new 7 7)) ∧
      Point.new 9 9 ∉ compute_fov (Point.new 5 5) 10 (fun p => decide (p = Point.new 7 7))) :=
  ⟨by norm_num, fov_wall_occlusion 10 (by norm_num)⟩

/-!
### Proof device: the scan without the distance check

`scanColsND` / `scanRowsND` are `scanCols` / `scanRows` with the
`max_radius_squared` skip removed (the depth cutoff stays).  They are used
to relate the radius-limited scan to its unbounded wedge geometry: the main
equivalence theorem below shows the real scan marks exactly the disk-filtered
marks of this one.
-/

def scanColsND (is_blocking : Point → Bool) (origin : Point) (q : Cardinal)
    (depth : Int) (end_slope : Fraction) :
    List Int → Fraction → Option Bool → SweepOut
  | [], start_slope, prev => ⟨[], [], start_slope, prev⟩
  | col :: cols, start_slope, prev =>
    let tile := Quadrant.transform q origin depth col
    let tile_blocking := is_blocking tile
    let row : Row := ⟨depth, start_slope, end_slope⟩
    let marked : Bool :=
      (tile_blocking && row.is_wall_visible col) || (!tile_blocking && row.is_symmetric col)
    let next_start : Fraction :=
      match prev with
      | some prev_blocking =>
        if prev_blocking && !tile_blocking then Row.slope col depth else start_slope
      | none => start_slope
    let pushed : List Row :=
      match prev with
      | some prev_blocking =>
        if !prev_blocking && tile_blocking then
          [Row.new (depth + 1) start_slope (Row.slope col depth)]
        else []
      | none => []
    let rest := scanColsND is_blocking origin q depth end_slope cols
      next_start (some tile_blocking)
    ⟨(if marked then [tile] else []) ++ rest.marks, pushed ++ rest.children,
      rest.start_slope, rest.prev⟩

def processRowND (is_blocking : Point → Bool) (origin : Point) (q : Cardinal)
    (row : Row) : List Point × List Row :=
  let out := scanColsND is_blocking origin q row.depth row.end_slope
    row.tiles row.start_slope none
  let children := out.children ++
    (if out.prev = some false then [Row.new (row.depth + 1) out.start_slope row.end_slope]
     else [])
  (out.marks, children)

def scanRowsND (is_blocking : Point → Bool) (origin : Point) (q : Cardinal)
    (max_radius : Int) : Nat → Row → List Point
  | 0, _ => []
  | gas + 1, row =>
    if row.depth > max_radius then []
    else
      let pr := processRowND is_blocking origin q row
      pr.1 ++ (pr.2.map (scanRowsND is_blocking origin q max_radius gas)).flatten

/-! ### Structural lemmas about the two sweeps -/

theorem rangeInts_eq_cons {a b : Int} (h : a ≤ b) :
    rangeInts a b = a :: rangeInts (a + 1) b := by
  unfold rangeInts
  have hn : (b + 1 - a).toNat = (b + 1 - (a + 1)).toNat + 1 := by omega
  rw [hn, List.range_succ_eq_map]
  simp only [List.map_cons, List.map_map]
  congr 1
  · simp
  · apply List.map_congr_left
    intro i _
    simp only [Function.comp_apply]
    push_cast
    ring

theorem rangeInts_eq_append {a k b : Int} (h1 : a ≤ k) (h2 : k ≤ b + 1) :
    rangeInts a b = rangeInts a (k - 1) ++ rangeInts k b := by
  obtain ⟨n, hn⟩ : ∃ n : Nat, k - a = n := ⟨(k - a).toNat, by omega⟩
  induction n generalizing a with
  | zero =>
    have : a = k := by omega
    subst this
    have : rangeInts a (a - 1) = [] := by
      unfold rangeInts
      have : (a - 1 + 1 - a).toNat = 0 := by omega
      rw [this]
      simp
    rw [this, List.nil_append]
  | succ n ih =>
    have hak : a < k := by omega
    rcases le_or_lt a b with hab | hab
    · rw [rangeInts_eq_cons hab, ih (by omega) (by omega), rangeInts_eq_cons (by omega : a ≤ k - 1)]
      simp
    · -- impossible: a < k ≤ b + 1 forces a ≤ b
      exact absurd hab (by omega)

theorem scanCols_append (is_blocking : Point → Bool) (origin : Point) (q : Cardinal)
    (mrs d : Int) (e : Fraction) :
    ∀ (cs₁ cs₂ : List Int) (s : Fraction) (prev : Option Bool),
      scanCols is_blocking origin q mrs d e (cs₁ ++ cs₂) s prev =
        ⟨(scanCols is_blocking origin q mrs d e cs₁ s prev).marks ++
            (scanCols is_blocking origin q mrs d e cs₂
              (scanCols is_blocking origin q mrs d e cs₁ s prev).start_slope
              (scanCols is_blocking origin q mrs d e cs₁ s prev).prev).marks,
          (scanCols is_blocking origin q mrs d e cs₁ s prev).children ++
            (scanCols is_blocking origin q mrs d e cs₂
              (scanCols is_blocking origin q mrs d e cs₁ s prev).start_slope
              (scanCols is_blocking origin q mrs d e cs₁ s prev).prev).children,
          (scanCols is_blocking origin q mrs d e cs₂
            (scanCols is_blocking origin q mrs d e cs₁ s prev).start_slope
            (scanCols is_blocking origin q mrs d e cs₁ s prev).prev).start_slope,
          (scanCols is_blocking origin q mrs d e cs₂
            (scanCols is_blocking origin q mrs d e cs₁ s prev).start_slope
            (scanCols is_blocking origin q mrs d e cs₁ s prev).prev).prev⟩ := by
  intro cs₁
  induction cs₁ with
  | nil => intro cs₂ s prev; simp [scanCols]
  | cons col cs₁ ih =>
    intro cs₂ s prev
    simp only [List.cons_append, scanCols, List.append_eq]
    split
    · exact ih cs₂ s prev
    · simp only [ih, List.append_assoc]

theorem scanColsND_append (is_blocking : Point → Bool) (origin : Point) (q : Cardinal)
    (d : Int) (e : Fraction) :
    ∀ (cs₁ cs₂ : List Int) (s : Fraction) (prev : Option Bool),
      scanColsND is_blocking origin q d e (cs₁ ++ cs₂) s prev =
        ⟨(scanColsND is_blocking origin q d e cs₁ s prev).marks ++
            (scanColsND is_blocking origin q d e cs₂
              (scanColsND is_blocking origin q d e cs₁ s prev).start_slope
              (scanColsND is_blocking origin q d e cs₁ s prev).prev).marks,
          (scanColsND is_blocking origin q d e cs₁ s prev).children ++
            (scanColsND is_blocking origin q d e cs₂
              (scanColsND is_blocking origin q d e cs₁ s prev).start_slope
              (scanColsND is_blocking origin q d e cs₁ s prev).prev).children,
          (scanColsND is_blocking origin q d e cs₂
            (scanColsND is_blocking origin q d e cs₁ s prev).start_slope
            (scanColsND is_blocking origin q d e cs₁ s prev).prev).start_slope,
          (scanColsND is_blocking origin q d e cs₂
            (scanColsND is_blocking origin q d e cs₁ s prev).start_slope
            (scanColsND is_blocking origin q d e cs₁ s prev).prev).prev⟩ := by
  intro cs₁
  induction cs₁ with
  | nil => intro cs₂ s prev; simp [scanColsND]
  | cons col cs₁ ih =>
    intro cs₂ s prev
    simp only [List.cons_append, scanColsND, List.append_eq, ih, List.append_assoc]

/-- A sweep whose columns are all outside the circle does nothing at all. -/
theorem scanCols_skip_all (is_blocking : Point → Bool) (origin : Point) (q : Cardinal)
    (mrs d : Int) (e : Fraction) :
    ∀ (cols : List Int) (s : Fraction) (prev : Option Bool),
      (∀ c ∈ cols, mrs < d * d + c * c) →
      scanCols is_blocking origin q mrs d e cols s prev = ⟨[], [], s, prev⟩ := by
  intro cols
  induction cols with
  | nil => intro s prev _; rfl
  | cons col cols ih =>
    intro s prev hall
    have hc := hall col (List.mem_cons_self _ _)
    have hskip : ((Quadrant.transform q origin d col).x - origin.x) *
          ((Quadrant.transform q origin d col).x - origin.x) +
        ((Quadrant.transform q origin d col).y - origin.y) *
          ((Quadrant.transform q origin d col).y - origin.y) > mrs := by
      rw [transform_dist]; omega
    simp only [scanCols, if_pos hskip]
    exact ih s prev (fun c hc2 => hall c (List.mem_cons_of_mem _ hc2))

/-- Every mark of an ND sweep is the transform of one of its columns. -/
theorem scanColsND_marks_shape {is_blocking : Point → Bool} {origin : Point} {q : Cardinal}
    {d : Int} {e : Fraction} :
    ∀ (cols : List Int) (s : Fraction) (prev : Option Bool) (p : Point),
      p ∈ (scanColsND is_blocking origin q d e cols s prev).marks →
      ∃ c ∈ cols, p = Quadrant.transform q origin d c := by
  intro cols
  induction cols with
  | nil => intro s prev p hp; simp [scanColsND] at hp
  | cons col cols ih =>
    intro s prev p hp
    simp only [scanColsND, List.mem_append] at hp
    rcases hp with hp | hp
    · split at hp
      · rcases List.mem_singleton.mp hp with rfl
        exact ⟨col, List.mem_cons_self _ _, rfl⟩
      · simp at hp
    · obtain ⟨c, hc, rfl⟩ := ih _ _ _ hp
      exact ⟨c, List.mem_cons_of_mem _ hc, rfl⟩

/-- Shape of an ND sweep's outputs: every child sits at depth `d+1`, its
start slope is the initial one or the left-edge slope of a swept column, its
end slope is the left-edge slope of a swept column; the final start slope is
likewise the initial one or a swept column's left-edge slope. -/
theorem scanColsND_shape {is_blocking : Point → Bool} {origin : Point} {q : Cardinal}
    {d : Int} {e : Fraction} :
    ∀ (cols : List Int) (s : Fraction) (prev : Option Bool),
      ((scanColsND is_blocking origin q d e cols s prev).start_slope = s ∨
        ∃ cs ∈ cols, (scanColsND is_blocking origin q d e cols s prev).start_slope =
          Row.slope cs d) ∧
      ∀ r ∈ (scanColsND is_blocking origin q d e cols s prev).children,
        r.depth = d + 1 ∧
        (r.start_slope = s ∨ ∃ cs ∈ cols, r.start_slope = Row.slope cs d) ∧
        (∃ ce ∈ cols, r.end_slope = Row.slope ce d) := by
  intro cols
  induction cols with
  | nil => intro s prev; exact ⟨Or.inl rfl, by simp [scanColsND]⟩
  | cons col cols ih =>
    intro s prev
    have hlift : ∀ ns : Fraction, (ns = s ∨ ns = Row.slope col d) →
        ∀ t : Fraction, (t = ns ∨ ∃ cs ∈ cols, t = Row.slope cs d) →
        (t = s ∨ ∃ cs ∈ col :: cols, t = Row.slope cs d) := by
      rintro ns (rfl | rfl) t (rfl | ⟨cs, hcs, rfl⟩)
      · exact Or.inl rfl
      · exact Or.inr ⟨cs, List.mem_cons_of_mem _ hcs, rfl⟩
      · exact Or.inr ⟨col, List.mem_cons_self _ _, rfl⟩
      · exact Or.inr ⟨cs, List.mem_cons_of_mem _ hcs, rfl⟩
    have hnext : ∀ prevb : Option Bool,
        (match prevb with
          | some prev_blocking =>
            if prev_blocking && !is_blocking (Quadrant.transform q origin d col)
            then Row.slope col d else s
          | none => s) = s ∨
        (match prevb with
          | some prev_blocking =>
            if prev_blocking && !is_blocking (Quadrant.transform q origin d col)
            then Row.slope col d else s
          | none => s) = Row.slope col d := by
      intro prevb
      rcases prevb with _ | pb
      · exact Or.inl rfl
      · simp only
        split
        · exact Or.inr rfl
        · exact Or.inl rfl
    simp only [scanColsND]
    constructor
    · exact hlift _ (hnext prev) _ ((ih _ _).1)
    · intro r hr
      simp only [List.mem_append] at hr
      rcases hr with hr | hr
      · rcases prev with _ | pb
        · simp at hr
        · simp only at hr
          split at hr
          · rcases List.mem_singleton.mp hr with rfl
            exact ⟨rfl, Or.inl rfl, ⟨col, List.mem_cons_self _ _, rfl⟩⟩
          · simp at hr
      · obtain ⟨hdep, hstart, ce, hce, hend⟩ := (ih _ _).2 r hr
        exact ⟨hdep, hlift _ (hnext prev) _ hstart,
          ⟨ce, List.mem_cons_of_mem _ hce, hend⟩⟩

/-- `RowInv` propagation for the ND sweep (analogue of `scanCols_inv`). -/
theorem scanColsND_inv (is_blocking : Point → Bool) (origin : Point) (q : Cardinal)
    (d : Int) (e : Fraction) (hd : 1 ≤ d) :
    ∀ (cols : List Int) (s : Fraction) (prev : Option Bool),
      0 < s.denominator → -s.denominator ≤ s.numerator →
      (∀ c ∈ cols, -d ≤ c ∧ c ≤ d) →
      cols.Pairwise (· < ·) →
      (prev = none ∨ ∀ c ∈ cols, -d + 1 ≤ c) →
      (0 < (scanColsND is_blocking origin q d e cols s prev).start_slope.denominator ∧
        -(scanColsND is_blocking origin q d e cols s prev).start_slope.denominator ≤
          (scanColsND is_blocking origin q d e cols s prev).start_slope.numerator) ∧
      ∀ r ∈ (scanColsND is_blocking origin q d e cols s prev).children,
        r.depth = d + 1 ∧ 0 < r.start_slope.denominator ∧
          -r.start_slope.denominator ≤ r.start_slope.numerator ∧
          0 < r.end_slope.denominator ∧ r.end_slope.numerator ≤ r.end_slope.denominator := by
  intro cols
  induction cols with
  | nil =>
    intro s prev hs1 hs2 _ _ _
    exact ⟨⟨hs1, hs2⟩, by simp [scanColsND]⟩
  | cons col cols ih =>
    intro s prev hs1 hs2 hbounds hpair hprev
    have hcol : -d ≤ col ∧ col ≤ d := hbounds col (List.mem_cons_self _ _)
    have hbounds2 : ∀ c ∈ cols, -d ≤ c ∧ c ≤ d := fun c hc =>
      hbounds c (List.mem_cons_of_mem _ hc)
    have hpair2 : cols.Pairwise (· < ·) := (List.pairwise_cons.mp hpair).2
    have hgt : ∀ c ∈ cols, col < c := (List.pairwise_cons.mp hpair).1
    have htail : ∀ c ∈ cols, -d + 1 ≤ c := fun c hc => by
      have h1 := hgt c hc
      have h2 := hcol.1
      omega
    rcases prev with _ | pb
    · simp only [scanColsND]
      have hrest := ih s (some (is_blocking (Quadrant.transform q origin d col)))
        hs1 hs2 hbounds2 hpair2 (Or.inr htail)
      refine ⟨hrest.1, ?_⟩
      intro r hr
      simp only [List.nil_append] at hr
      exact hrest.2 r hr
    · have hlow : -d + 1 ≤ col := by
        rcases hprev with h | h
        · exact absurd h (by simp)
        · exact h col (List.mem_cons_self _ _)
      have hslope1 : 0 < (Row.slope col d).denominator := by
        simp only [Row.slope, Fraction.new]
        omega
      have hslope2 : -(Row.slope col d).denominator ≤ (Row.slope col d).numerator := by
        simp only [Row.slope, Fraction.new]
        omega
      have hchild : ∀ r : Row, r = Row.new (d + 1) s (Row.slope col d) →
          r.depth = d + 1 ∧ 0 < r.start_slope.denominator ∧
            -r.start_slope.denominator ≤ r.start_slope.numerator ∧
            0 < r.end_slope.denominator ∧ r.end_slope.numerator ≤ r.end_slope.denominator := by
        rintro r rfl
        refine ⟨rfl, hs1, hs2, hslope1, ?_⟩
        simp only [Row.new, Row.slope, Fraction.new]
        have := hcol.2
        omega
      cases hpb : pb <;> cases hblk : is_blocking (Quadrant.transform q origin d col) <;>
        simp only [scanColsND, hblk, Bool.not_false, Bool.not_true, Bool.and_false, Bool.and_true,
          Bool.false_and, Bool.true_and, Bool.false_eq_true, Bool.true_eq_false,
          eq_self_iff_true, if_true, if_false, List.nil_append]
      · exact ih s _ hs1 hs2 hbounds2 hpair2 (Or.inr htail)
      · have hrest := ih s (some true) hs1 hs2 hbounds2 hpair2 (Or.inr htail)
        refine ⟨hrest.1, ?_⟩
        intro r hr
        rcases List.mem_cons.mp hr with rfl | hr
        · exact hchild _ rfl
        · exact hrest.2 r hr
      · exact ih (Row.slope col d) _ hslope1 hslope2 hbounds2 hpair2 (Or.inr htail)
      · exact ih s _ hs1 hs2 hbounds2 hpair2 (Or.inr htail)

theorem processRowND_children_inv (is_blocking : Point → Bool) (origin : Point) (q : Cardinal)
    (row : Row) (hinv : RowInv row) :
    ∀ r ∈ (processRowND is_blocking origin q row).2, RowInv r ∧ r.depth = row.depth + 1 := by
  obtain ⟨hd, hs1, he1, hs2, he2⟩ := hinv
  have hmain := scanColsND_inv is_blocking origin q row.depth row.end_slope hd
    row.tiles row.start_slope none hs1 hs2 (tiles_col_bounds ⟨hd, hs1, he1, hs2, he2⟩)
    (rangeInts_pairwise _ _) (Or.inl rfl)
  intro r hr
  simp only [processRowND, List.mem_append] at hr
  rcases hr with hr | hr
  · obtain ⟨hdep, h1, h2, h3, h4⟩ := hmain.2 r hr
    exact ⟨⟨by omega, h1, h3, h2, h4⟩, hdep⟩
  · split at hr
    · rcases List.mem_singleton.mp hr with rfl
      constructor
      · unfold RowInv
        simp only [Row.new]
        exact ⟨by omega, hmain.1.1, he1, hmain.1.2, he2⟩
      · simp [Row.new]
    · simp at hr

/-- Marks of the ND row tree keep quadrant depth ≥ the root's depth. -/
theorem scanRowsND_marks_qdepth {is_blocking : Point → Bool} {origin : Point} {q : Cardinal}
    {max_radius : Int} :
    ∀ (gas : Nat) (row : Row) (p : Point),
      p ∈ scanRowsND is_blocking origin q max_radius gas row →
      row.depth ≤ qdepth q origin p := by
  intro gas
  induction gas with
  | zero => intro row p hp; simp [scanRowsND] at hp
  | succ gas ih =>
    intro row p hp
    simp only [scanRowsND] at hp
    split at hp
    · simp at hp
    · simp only [List.mem_append, List.mem_flatten, List.mem_map] at hp
      rcases hp with hp | ⟨l, ⟨child, hchild, rfl⟩, hp⟩
      · obtain ⟨c, _, rfl⟩ := scanColsND_marks_shape _ _ _ _ hp
        exact le_of_eq (qdepth_transform q origin row.depth c).symm
      · have hd : child.depth = row.depth + 1 := by
          simp only [processRowND, List.mem_append] at hchild
          rcases hchild with hc | hc
          · exact ((scanColsND_shape _ _ _).2 child hc).1
          · split at hc
            · rcases List.mem_singleton.mp hc with rfl
              rfl
            · simp at hc
        have := ih child p hp
        omega

/-- Raising the cutoff (and giving adequate fuel) can only add ND marks:
rows at depth ≤ R are processed identically, the deeper cutoff only
processes more rows. -/
theorem scanRowsND_cutoff_mono {is_blocking : Point → Bool} {origin : Point} {q : Cardinal}
    {R R' : Int} (hRR : R ≤ R') :
    ∀ (gas gas' : Nat) (row : Row) (p : Point), R' < row.depth + gas' →
      p ∈ scanRowsND is_blocking origin q R gas row →
      p ∈ scanRowsND is_blocking origin q R' gas' row := by
  intro gas
  induction gas with
  | zero => intro gas' row p _ hp; simp [scanRowsND] at hp
  | succ gas ih =>
    intro gas' row p hg' hp
    simp only [scanRowsND] at hp
    split at hp
    · simp at hp
    · rename_i hdepth
      push_neg at hdepth
      rcases gas' with _ | gas'
      · exact absurd hg' (by omega)
      · simp only [scanRowsND, if_neg (by omega : ¬row.depth > R')]
        simp only [List.mem_append, List.mem_flatten, List.mem_map] at hp ⊢
        rcases hp with hp | ⟨l, ⟨child, hchild, rfl⟩, hp⟩
        · exact Or.inl hp
        · refine Or.inr ⟨_, ⟨child, hchild, rfl⟩, ?_⟩
          have hd : child.depth = row.depth + 1 := by
            simp only [processRowND, List.mem_append] at hchild
            rcases hchild with hc | hc
            · exact ((scanColsND_shape _ _ _).2 child hc).1
            · split at hc
              · rcases List.mem_singleton.mp hc with rfl
                rfl
              · simp at hc
          exact ih gas' child p (by omega) hp

/-! ### Arithmetic characterizations of the slope tests -/

theorem greater_equal_iff (a b : Fraction) :
    a.greater_equal b = true ↔ b.numerator * a.denominator ≤ a.numerator * b.denominator := by
  unfold Fraction.greater_equal
  exact decide_eq_true_iff

theorem less_equal_iff (a b : Fraction) :
    a.less_equal b = true ↔ a.numerator * b.denominator ≤ b.numerator * a.denominator := by
  unfold Fraction.less_equal
  exact decide_eq_true_iff

/-- `min_col ≤ c` unfolds to the strict cross-multiplied comparison
`start < (2c+1)/(2·depth)`. -/
theorem ediv_le_iff_lt_mul {a b c : Int} (hb : 0 < b) : a / b ≤ c ↔ a < (c + 1) * b := by
  constructor
  · intro h
    have := Int.lt_ediv_add_one_mul_self a hb
    nlinarith
  · intro h
    by_contra hcon
    push_neg at hcon
    have h1 : (c + 1) * b ≤ a / b * b := by nlinarith
    have h2 := Int.ediv_mul_le a (by omega : b ≠ 0)
    omega

theorem round_up_le_iff {s : Fraction} {d c : Int} (hden : 0 < s.denominator) (hd : 0 < d) :
    Row.round_ties_up_frac s d ≤ c ↔
      s.numerator * (2 * d) < (2 * c + 1) * s.denominator := by
  unfold Row.round_ties_up_frac div_floor
  rw [Int.fdiv_eq_ediv _ (by positivity), ediv_le_iff_lt_mul (by positivity)]
  constructor <;> intro h <;> nlinarith

/-- `c ≤ max_col` unfolds to the strict cross-multiplied comparison
`(2c−1)/(2·depth) < end`. -/
theorem le_round_down_iff {e : Fraction} {d c : Int} (hden : 0 < e.denominator) (hd : 0 < d) :
    c ≤ Row.round_ties_down_frac e d ↔
      (2 * c - 1) * e.denominator < e.numerator * (2 * d) := by
  unfold Row.round_ties_down_frac div_ceil
  have h1 : c ≤ -Int.fdiv (-(e.numerator * d * 2 - e.denominator)) (e.denominator * 2) ↔
      Int.fdiv (-(e.numerator * d * 2 - e.denominator)) (e.denominator * 2) ≤ -c := by omega
  rw [h1, Int.fdiv_eq_ediv _ (by positivity), ediv_le_iff_lt_mul (by positivity)]
  constructor <;> intro h <;> nlinarith

/-- Column membership in a row's tile range, in cross-multiplied form. -/
theorem mem_tiles_iff {row : Row} {c : Int} (hs : 0 < row.start_slope.denominator)
    (he : 0 < row.end_slope.denominator) (hd : 0 < row.depth) :
    c ∈ row.tiles ↔
      (row.start_slope.numerator * (2 * row.depth) < (2 * c + 1) * row.start_slope.denominator ∧
       (2 * c - 1) * row.end_slope.denominator < row.end_slope.numerator * (2 * row.depth)) := by
  rw [Row.tiles, mem_rangeInts, round_up_le_iff hs hd, le_round_down_iff he hd]

/-! ### Rounding monotonicity in depth -/

theorem round_up_depth_mono {s : Fraction} {d dp : Int} (hden : 0 < s.denominator)
    (hnum : 0 ≤ s.numerator) (hd : 0 < d) (hdd : d ≤ dp) :
    Row.round_ties_up_frac s d ≤ Row.round_ties_up_frac s dp := by
  unfold Row.round_ties_up_frac div_floor
  rw [Int.fdiv_eq_ediv _ (by positivity), Int.fdiv_eq_ediv _ (by positivity)]
  exact Int.ediv_le_ediv (by positivity) (by nlinarith)

theorem round_down_depth_mono {e : Fraction} {d dp : Int} (hden : 0 < e.denominator)
    (hnum : e.numerator ≤ 0) (hd : 0 < d) (hdd : d ≤ dp) :
    Row.round_ties_down_frac e dp ≤ Row.round_ties_down_frac e d := by
  show -Int.fdiv (-(e.numerator * dp * 2 - e.denominator)) (e.denominator * 2) ≤
    -Int.fdiv (-(e.numerator * d * 2 - e.denominator)) (e.denominator * 2)
  have h : Int.fdiv (-(e.numerator * d * 2 - e.denominator)) (e.denominator * 2) ≤
      Int.fdiv (-(e.numerator * dp * 2 - e.denominator)) (e.denominator * 2) := by
    rw [Int.fdiv_eq_ediv _ (by positivity), Int.fdiv_eq_ediv _ (by positivity)]
    exact Int.ediv_le_ediv (by positivity) (by nlinarith)
  omega

/-- The next-depth range of a wedge starting at a column's left edge starts
at or after that column (positive side). -/
theorem round_up_slope_ge {c d : Int} (hc : 1 ≤ c) (hd : 1 ≤ d) :
    c ≤ Row.round_ties_up_frac (Row.slope c d) (d + 1) := by
  by_contra hcon
  push_neg at hcon
  have h := (round_up_le_iff (s := Row.slope c d) (d := d + 1) (c := c - 1)
    (by simp only [Row.slope, Fraction.new]; omega) (by omega)).mp (by omega)
  simp only [Row.slope, Fraction.new] at h
  nlinarith

/-- The next-depth range of a wedge ending at a column's left edge ends
at or before that column (holds for any `c ≤ d`). -/
theorem round_down_slope_le {c d : Int} (hc : c ≤ d) (hd : 1 ≤ d) :
    Row.round_ties_down_frac (Row.slope c d) (d + 1) ≤ c := by
  by_contra hcon
  push_neg at hcon
  have h := (le_round_down_iff (e := Row.slope c d) (d := d + 1) (c := c + 1)
    (by simp only [Row.slope, Fraction.new]; omega) (by omega)).mp (by omega)
  simp only [Row.slope, Fraction.new] at h
  nlinarith

/-- A positive minimum column forces a positive start numerator. -/
theorem start_num_pos_of_round_up {s : Fraction} {d : Int} (hden : 0 < s.denominator)
    (hd : 0 < d) (h : 1 ≤ Row.round_ties_up_frac s d) : 0 < s.numerator := by
  by_contra hcon
  push_neg at hcon
  have h0 : Row.round_ties_up_frac s d ≤ 0 :=
    (round_up_le_iff hden hd).mpr (by nlinarith)
  omega

/-- A negative maximum column forces a negative end numerator. -/
theorem end_num_neg_of_round_down {e : Fraction} {d : Int} (hden : 0 < e.denominator)
    (hd : 0 < d) (h : Row.round_ties_down_frac e d ≤ -1) : e.numerator < 0 := by
  by_contra hcon
  push_neg at hcon
  have h0 : 0 ≤ Row.round_ties_down_frac e d :=
    (le_round_down_iff hden hd).mpr (by nlinarith)
  omega

/-! ### Fringe inequalities: tiles angularly beyond an out-of-circle column
stay out of the circle at every deeper depth -/

/-- Left side: a tile at depth `dp ≥ d` whose left-edge slope lies below the
left-edge slope of an out-of-circle column `ck ≤ -1` is itself out of the
circle. -/
theorem fringe_left (R d dp ck c' : Int) (hd : 1 ≤ d) (hdd : d ≤ dp) (hck : ck ≤ -1)
    (hfr : R * R < d * d + ck * ck) (hlt : (2 * c' - 1) * d < (2 * ck - 1) * dp) :
    R * R < dp * dp + c' * c' := by
  have h1 : (2 * ck - 1) * dp ≤ (2 * ck - 1) * d := by nlinarith
  have h2 : 2 * c' - 1 < 2 * ck - 1 := by nlinarith
  have h3 : c' ≤ ck - 1 := by omega
  have hc2 : (ck - 1) * (ck - 1) ≤ c' * c' := by nlinarith
  have hd2 : d * d ≤ dp * dp := by nlinarith
  nlinarith

/-- Left side at the circle boundary: a tile angularly below the left edge of
the first in-circle column `lo ≤ 0` (whose left neighbour `lo − 1` is out of
the circle) is out of the circle. -/
theorem fringe_left_lo (R d dp lo c' : Int) (hd : 1 ≤ d) (hdd : d ≤ dp) (hlo : lo ≤ 0)
    (hfr : R * R < d * d + (lo - 1) * (lo - 1)) (hlt : (2 * c' - 1) * d < (2 * lo - 1) * dp) :
    R * R < dp * dp + c' * c' := by
  have h1 : (2 * lo - 1) * dp ≤ (2 * lo - 1) * d := by nlinarith
  have h2 : 2 * c' - 1 < 2 * lo - 1 := by nlinarith
  have h3 : c' ≤ lo - 1 := by omega
  have hc2 : (lo - 1) * (lo - 1) ≤ c' * c' := by nlinarith
  have hd2 : d * d ≤ dp * dp := by nlinarith
  nlinarith

/-- Right side, edge test: a tile whose left-edge slope lies at or above the
left-edge slope of an out-of-circle column `ck ≥ 1` is out of the circle. -/
theorem fringe_right_edge (R d dp ck c' : Int) (hd : 1 ≤ d) (hdd : d ≤ dp) (hck : 1 ≤ ck)
    (hfr : R * R < d * d + ck * ck) (hge : (2 * ck - 1) * dp ≤ (2 * c' - 1) * d) :
    R * R < dp * dp + c' * c' := by
  have h1 : (2 * ck - 1) * d ≤ (2 * ck - 1) * dp := by nlinarith
  have h2 : 2 * ck - 1 ≤ 2 * c' - 1 := by nlinarith
  have h3 : ck ≤ c' := by omega
  have hc2 : ck * ck ≤ c' * c' := by nlinarith
  have hd2 : d * d ≤ dp * dp := by nlinarith
  omega

/-- Right side, center test: a tile whose center slope lies strictly above
the left-edge slope of an out-of-circle column `ck ≥ 1` is out of the circle. -/
theorem fringe_right_center (R d dp ck c' : Int) (hd : 1 ≤ d) (hdd : d ≤ dp) (hck : 1 ≤ ck)
    (hfr : R * R < d * d + ck * ck) (hgt : (2 * ck - 1) * dp < 2 * c' * d) :
    R * R < dp * dp + c' * c' := by
  have h1 : (2 * ck - 1) * d ≤ (2 * ck - 1) * dp := by nlinarith
  have h2 : 2 * ck - 1 < 2 * c' := by nlinarith
  have h3 : ck ≤ c' := by omega
  have hc2 : ck * ck ≤ c' * c' := by nlinarith
  have hd2 : d * d ≤ dp * dp := by nlinarith
  omega

/-- Transitivity of the cross-multiplied order on fractions with positive
denominators. -/
theorem frac_cross_trans {a b c : Fraction} (ha : 0 < a.denominator)
    (hb : 0 < b.denominator) (hc : 0 < c.denominator)
    (h1 : a.numerator * b.denominator ≤ b.numerator * a.denominator)
    (h2 : b.numerator * c.denominator ≤ c.numerator * b.denominator) :
    a.numerator * c.denominator ≤ c.numerator * a.denominator := by
  have h1' := mul_le_mul_of_nonneg_right h1 hc.le
  have h2' := mul_le_mul_of_nonneg_right h2 ha.le
  have hchain : a.numerator * c.denominator * b.denominator ≤
      c.numerator * a.denominator * b.denominator := by nlinarith
  exact le_of_mul_le_mul_right hchain hb

/-- Strict/non-strict mixed transitivity on the cross-multiplied order. -/
theorem frac_cross_lt_of_lt_of_le {a b c : Fraction} (ha : 0 < a.denominator)
    (hb : 0 < b.denominator) (hc : 0 < c.denominator)
    (h1 : a.numerator * b.denominator < b.numerator * a.denominator)
    (h2 : b.numerator * c.denominator ≤ c.numerator * b.denominator) :
    a.numerator * c.denominator < c.numerator * a.denominator := by
  have h1' := mul_lt_mul_of_pos_right h1 hc
  have h2' := mul_le_mul_of_nonneg_right h2 ha.le
  have hchain : a.numerator * c.denominator * b.denominator <
      c.numerator * a.denominator * b.denominator := by nlinarith
  exact lt_of_mul_lt_mul_right hchain hb.le

theorem frac_cross_lt_of_le_of_lt {a b c : Fraction} (ha : 0 < a.denominator)
    (hb : 0 < b.denominator) (hc : 0 < c.denominator)
    (h1 : a.numerator * b.denominator ≤ b.numerator * a.denominator)
    (h2 : b.numerator * c.denominator < c.numerator * b.denominator) :
    a.numerator * c.denominator < c.numerator * a.denominator := by
  have h1' := mul_le_mul_of_nonneg_right h1 hc.le
  have h2' := mul_lt_mul_of_pos_right h2 ha
  have hchain : a.numerator * c.denominator * b.denominator <
      c.numerator * a.denominator * b.denominator := by nlinarith
  exact lt_of_mul_lt_mul_right hchain hb.le

/-! ### Slope environments: agreement of all in-circle slope tests -/

theorem chain_lt {x y K P Q D : Int} (hD : 0 < D) (hy : 0 < y) (hP : 0 < P)
    (h1 : x * D < K * y) (h2 : K * P ≤ Q * D) : x * P < Q * y := by
  have ha := mul_lt_mul_of_pos_right h1 hP
  have hb := mul_le_mul_of_nonneg_right h2 hy.le
  have hc : D * (x * P) < D * (Q * y) := by nlinarith
  exact lt_of_mul_lt_mul_left hc hD.le

theorem chain_lt2 {Q D K y x P : Int} (hD : 0 < D) (hy : 0 < y) (hP : 0 < P)
    (h2 : Q * D ≤ K * P) (h1 : K * y < x * D) : Q * y < x * P := by
  have ha := mul_le_mul_of_nonneg_right h2 hy.le
  have hb := mul_lt_mul_of_pos_right h1 hP
  have hc : D * (Q * y) < D * (x * P) := by nlinarith
  exact lt_of_mul_lt_mul_left hc hD.le

/-- Two start slopes agree on every test the scan can make against an
in-circle tile at depth ≥ d: the center-slope test, the left-edge-slope test
and the minimum-column bound. -/
def EqS (R d : Int) (s s' : Fraction) : Prop :=
  ∀ d' c' : Int, d ≤ d' → d' * d' + c' * c' ≤ R * R →
    ((Fraction.new c' d').greater_equal s = (Fraction.new c' d').greater_equal s') ∧
    ((Row.slope c' d').greater_equal s = (Row.slope c' d').greater_equal s') ∧
    (Row.round_ties_up_frac s d' ≤ c' ↔ Row.round_ties_up_frac s' d' ≤ c')

/-- Two end slopes agree on every test the scan can make against an
in-circle tile at depth ≥ d. -/
def EqE (R d : Int) (e' e : Fraction) : Prop :=
  ∀ d' c' : Int, d ≤ d' → d' * d' + c' * c' ≤ R * R →
    ((Fraction.new c' d').less_equal e' = (Fraction.new c' d').less_equal e) ∧
    ((Row.slope c' d').less_equal e' = (Row.slope c' d').less_equal e) ∧
    (c' ≤ Row.round_ties_down_frac e' d' ↔ c' ≤ Row.round_ties_down_frac e d')

theorem EqS_refl (R d : Int) (s : Fraction) : EqS R d s s :=
  fun _ _ _ _ => ⟨rfl, rfl, Iff.rfl⟩

theorem EqE_refl (R d : Int) (e : Fraction) : EqE R d e e :=
  fun _ _ _ _ => ⟨rfl, rfl, Iff.rfl⟩

theorem EqS_mono {R d d₂ : Int} {s s' : Fraction} (h : d ≤ d₂) (he : EqS R d s s') :
    EqS R d₂ s s' :=
  fun d' c' hd' hdisk => he d' c' (by omega) hdisk

theorem EqE_mono {R d d₂ : Int} {e' e : Fraction} (h : d ≤ d₂) (he : EqE R d e' e) :
    EqE R d₂ e' e :=
  fun d' c' hd' hdisk => he d' c' (by omega) hdisk

/-- Advancing the tracked start slope to the left edge of an out-of-circle
column `ck ≤ -1` lying strictly above the current slope `s'` preserves the
slope environment: every in-circle tile at depth ≥ d sits angularly at or
above that edge, so all its tests stay positive on both sides. -/
theorem EqS_snoc {R d ck : Int} {s s' : Fraction}
    (hs' : 0 < s'.denominator) (hd : 1 ≤ d) (hck : ck ≤ -1)
    (hfr : R * R < d * d + ck * ck)
    (hlt : s'.numerator * (2 * d) < (2 * ck - 1) * s'.denominator)
    (he : EqS R d s s') :
    EqS R d s (Row.slope ck d) := by
  intro d' c' hdd hdisk
  have hd' : (0:Int) < d' := by nlinarith
  have h_edge : (2 * ck - 1) * d' ≤ (2 * c' - 1) * d := by
    by_contra hcon
    push_neg at hcon
    exact absurd hdisk (by have := fringe_left R d d' ck c' hd (by nlinarith : d ≤ d') hck hfr hcon; omega)
  have h_center : (2 * ck - 1) * d' ≤ c' * (2 * d) := by nlinarith
  have h_range : (2 * ck - 1) * d' < (2 * c' + 1) * d := by nlinarith
  have hddle : d ≤ d' := by nlinarith
  obtain ⟨he1, he2, he3⟩ := he d' c' hddle hdisk
  refine ⟨?_, ?_, ?_⟩
  · -- center test
    have hslope_true : (Fraction.new c' d').greater_equal (Row.slope ck d) = true := by
      rw [greater_equal_iff]
      simp only [Row.slope, Fraction.new]
      nlinarith
    have hs'_true : (Fraction.new c' d').greater_equal s' = true := by
      rw [greater_equal_iff]
      simp only [Fraction.new]
      have := chain_lt (by omega : (0:Int) < 2 * d) hs' hd' hlt h_center
      omega
    rw [hslope_true, he1, hs'_true]
  · -- left-edge test
    have hslope_true : (Row.slope c' d').greater_equal (Row.slope ck d) = true := by
      rw [greater_equal_iff]
      simp only [Row.slope, Fraction.new]
      nlinarith
    have hs'_true : (Row.slope c' d').greater_equal s' = true := by
      rw [greater_equal_iff]
      simp only [Row.slope, Fraction.new]
      have := chain_lt (by omega : (0:Int) < 2 * d) hs' (by omega : (0:Int) < 2 * d')
        hlt (by nlinarith : (2 * ck - 1) * (2 * d') ≤ (2 * c' - 1) * (2 * d))
      omega
    rw [hslope_true, he2, hs'_true]
  · -- minimum-column test
    have hslope_true : Row.round_ties_up_frac (Row.slope ck d) d' ≤ c' := by
      rw [round_up_le_iff (by simp only [Row.slope, Fraction.new]; omega) hd']
      simp only [Row.slope, Fraction.new]
      nlinarith
    have hs'_true : Row.round_ties_up_frac s' d' ≤ c' := by
      rw [round_up_le_iff hs' hd']
      exact chain_lt (by omega : (0:Int) < 2 * d) hs' (by omega : (0:Int) < 2 * d')
        hlt (by nlinarith : (2 * ck - 1) * (2 * d') ≤ (2 * c' + 1) * (2 * d))
    constructor
    · intro _
      exact hslope_true
    · intro _
      exact he3.mpr hs'_true

/-- Variant of `EqS_snoc` for the first in-circle column `lo ≤ 0`, whose left
neighbour is out of the circle. -/
theorem EqS_snoc_lo {R d lo : Int} {s s' : Fraction}
    (hs' : 0 < s'.denominator) (hd : 1 ≤ d) (hlo : lo ≤ 0)
    (hfr : R * R < d * d + (lo - 1) * (lo - 1))
    (hlt : s'.numerator * (2 * d) < (2 * lo - 1) * s'.denominator)
    (he : EqS R d s s') :
    EqS R d s (Row.slope lo d) := by
  intro d' c' hdd hdisk
  have hd' : (0:Int) < d' := by nlinarith
  have h_edge : (2 * lo - 1) * d' ≤ (2 * c' - 1) * d := by
    by_contra hcon
    push_neg at hcon
    exact absurd hdisk
      (by have := fringe_left_lo R d d' lo c' hd (by nlinarith : d ≤ d') hlo hfr hcon; omega)
  have h_center : (2 * lo - 1) * d' ≤ c' * (2 * d) := by nlinarith
  have hddle : d ≤ d' := by nlinarith
  obtain ⟨he1, he2, he3⟩ := he d' c' hddle hdisk
  refine ⟨?_, ?_, ?_⟩
  · have hslope_true : (Fraction.new c' d').greater_equal (Row.slope lo d) = true := by
      rw [greater_equal_iff]
      simp only [Row.slope, Fraction.new]
      nlinarith
    have hs'_true : (Fraction.new c' d').greater_equal s' = true := by
      rw [greater_equal_iff]
      simp only [Fraction.new]
      have := chain_lt (by omega : (0:Int) < 2 * d) hs' hd' hlt h_center
      omega
    rw [hslope_true, he1, hs'_true]
  · have hslope_true : (Row.slope c' d').greater_equal (Row.slope lo d) = true := by
      rw [greater_equal_iff]
      simp only [Row.slope, Fraction.new]
      nlinarith
    have hs'_true : (Row.slope c' d').greater_equal s' = true := by
      rw [greater_equal_iff]
      simp only [Row.slope, Fraction.new]
      have := chain_lt (by omega : (0:Int) < 2 * d) hs' (by omega : (0:Int) < 2 * d')
        hlt (by nlinarith : (2 * lo - 1) * (2 * d') ≤ (2 * c' - 1) * (2 * d))
      omega
    rw [hslope_true, he2, hs'_true]
  · have hslope_true : Row.round_ties_up_frac (Row.slope lo d) d' ≤ c' := by
      rw [round_up_le_iff (by simp only [Row.slope, Fraction.new]; omega) hd']
      simp only [Row.slope, Fraction.new]
      nlinarith
    have hs'_true : Row.round_ties_up_frac s' d' ≤ c' := by
      rw [round_up_le_iff hs' hd']
      exact chain_lt (by omega : (0:Int) < 2 * d) hs' (by omega : (0:Int) < 2 * d')
        hlt (by nlinarith : (2 * lo - 1) * (2 * d') ≤ (2 * c' + 1) * (2 * d))
    constructor
    · intro _
      exact hslope_true
    · intro _
      exact he3.mpr hs'_true

/-- Clipping the tracked end slope to the left edge of an out-of-circle
column `ck ≥ 1` lying strictly below the current end `e'` preserves the
slope environment: every in-circle tile at depth ≥ d sits angularly at or
below that edge. -/
theorem EqE_snoc {R d ck : Int} {e' e : Fraction}
    (he' : 0 < e'.denominator) (hd : 1 ≤ d) (hck : 1 ≤ ck)
    (hfr : R * R < d * d + ck * ck)
    (hlt : (2 * ck - 1) * e'.denominator < e'.numerator * (2 * d))
    (he : EqE R d e' e) :
    EqE R d (Row.slope ck d) e := by
  intro d' c' hdd hdisk
  have hd' : (0:Int) < d' := by nlinarith
  have hddle : d ≤ d' := by nlinarith
  have h_edge : (2 * c' - 1) * d ≤ (2 * ck - 1) * d' := by
    by_contra hcon
    push_neg at hcon
    exact absurd hdisk
      (by have := fringe_right_edge R d d' ck c' hd hddle hck hfr (by omega); omega)
  have h_center : c' * (2 * d) ≤ (2 * ck - 1) * d' := by
    by_contra hcon
    push_neg at hcon
    exact absurd hdisk
      (by have := fringe_right_center R d d' ck c' hd hddle hck hfr (by nlinarith); omega)
  obtain ⟨he1, he2, he3⟩ := he d' c' hddle hdisk
  refine ⟨?_, ?_, ?_⟩
  · have hslope_true : (Fraction.new c' d').less_equal (Row.slope ck d) = true := by
      rw [less_equal_iff]
      simp only [Row.slope, Fraction.new]
      nlinarith
    have he'_true : (Fraction.new c' d').less_equal e' = true := by
      rw [less_equal_iff]
      simp only [Fraction.new]
      have := chain_lt2 (by omega : (0:Int) < 2 * d) he' hd' h_center hlt
      omega
    rw [hslope_true, ← he1, he'_true]
  · have hslope_true : (Row.slope c' d').less_equal (Row.slope ck d) = true := by
      rw [less_equal_iff]
      simp only [Row.slope, Fraction.new]
      nlinarith
    have he'_true : (Row.slope c' d').less_equal e' = true := by
      rw [less_equal_iff]
      simp only [Row.slope, Fraction.new]
      have := chain_lt2 (by omega : (0:Int) < 2 * d) he' (by omega : (0:Int) < 2 * d')
        (by nlinarith : (2 * c' - 1) * (2 * d) ≤ (2 * ck - 1) * (2 * d')) hlt
      omega
    rw [hslope_true, ← he2, he'_true]
  · have hslope_true : c' ≤ Row.round_ties_down_frac (Row.slope ck d) d' ↔
        (2 * c' - 1) * (2 * d) < (2 * ck - 1) * (2 * d') := by
      rw [le_round_down_iff (by simp only [Row.slope, Fraction.new]; omega) hd']
      simp only [Row.slope, Fraction.new]
    constructor
    · intro h
      have h2 := hslope_true.mp h
      refine he3.mp ?_
      rw [le_round_down_iff he' hd']
      exact chain_lt2 (by omega : (0:Int) < 2 * d) he' (by omega : (0:Int) < 2 * d')
        (by nlinarith : (2 * c' - 1) * (2 * d) ≤ (2 * ck - 1) * (2 * d')) hlt
    · intro _
      refine hslope_true.mpr ?_
      by_contra hcon
      push_neg at hcon
      have hge : (2 * ck - 1) * d' ≤ (2 * c' - 1) * d := by nlinarith
      exact absurd hdisk
        (by have := fringe_right_edge R d d' ck c' hd hddle hck hfr hge; omega)
  -- (the last bound is exactly `h_edge`; both routes close the goal)

/-! ### Fringe rows: rows none of whose tiles are inside the circle -/

/-- All tiles of the row lie outside the circle of squared radius `R²`. -/
def RowFringe (R : Int) (row : Row) : Prop :=
  ∀ c ∈ row.tiles, R * R < row.depth * row.depth + c * c

theorem rangeInts_nil {lo hi : Int} (h : hi < lo) : rangeInts lo hi = [] := by
  unfold rangeInts
  have : (hi + 1 - lo).toNat = 0 := by omega
  rw [this]
  simp

/-- Children of a fringe row processed by the ND scan are fringe rows:
the spawned wedges stay angularly beyond the out-of-circle columns. -/
theorem fringe_children (is_blocking : Point → Bool) (origin : Point) (q : Cardinal)
    (R : Int) (row : Row) (hinv : RowInv row) (hfr : RowFringe R row)
    (hdR : row.depth ≤ R) :
    ∀ r ∈ (processRowND is_blocking origin q row).2, RowFringe R r := by
  obtain ⟨hd, hs1, he1, hs2, he2⟩ := hinv
  by_cases hne : Row.round_ties_up_frac row.start_slope row.depth ≤
    Row.round_ties_down_frac row.end_slope row.depth
  case neg =>
    -- empty tile range: no marks, no children, prev stays none
    have htiles : row.tiles = [] := by
      rw [Row.tiles, rangeInts_nil (by omega)]
    intro r hr
    simp only [processRowND, htiles, scanColsND, List.mem_append] at hr
    rcases hr with hr | hr
    · simp at hr
    · split at hr
      · rename_i hprev
        simp at hprev
      · simp at hr
  case pos =>
    set m := Row.round_ties_up_frac row.start_slope row.depth with hmdef
    set M := Row.round_ties_down_frac row.end_slope row.depth with hMdef
    have hmem_m : m ∈ row.tiles := by
      rw [Row.tiles, mem_rangeInts]
      omega
    have hmem_M : M ∈ row.tiles := by
      rw [Row.tiles, mem_rangeInts]
      omega
    have hbounds := tiles_col_bounds ⟨hd, hs1, he1, hs2, he2⟩
    have hzero : ¬(m ≤ 0 ∧ 0 ≤ M) := by
      rintro ⟨h1, h2⟩
      have h0 : (0:Int) ∈ row.tiles := by
        rw [Row.tiles, mem_rangeInts]
        omega
      have := hfr 0 h0
      nlinarith
    -- every child's tile at depth d+1 stays out of the circle
    have hsides : 1 ≤ m ∨ M ≤ -1 := by omega
    intro r hr
    obtain ⟨⟨hrd, hrs1, hre1, hrs2, hre2⟩, hrdepth⟩ :=
      processRowND_children_inv is_blocking origin q row ⟨hd, hs1, he1, hs2, he2⟩ r hr
    -- characterize r's start and end slopes
    have hshape : (r.start_slope = row.start_slope ∨
        ∃ cs ∈ row.tiles, r.start_slope = Row.slope cs row.depth) ∧
        ((∃ ce ∈ row.tiles, r.end_slope = Row.slope ce row.depth) ∨
          r.end_slope = row.end_slope) := by
      simp only [processRowND, List.mem_append] at hr
      rcases hr with hr | hr
      · obtain ⟨_, hstart, hend⟩ := (scanColsND_shape _ _ _).2 r hr
        exact ⟨hstart, Or.inl hend⟩
      · split at hr
        · rcases List.mem_singleton.mp hr with rfl
          obtain ⟨hstart, _⟩ := @scanColsND_shape is_blocking origin q row.depth
            row.end_slope row.tiles row.start_slope none
          exact ⟨hstart, Or.inr rfl⟩
        · simp at hr
    intro c₁ hc₁
    rw [Row.tiles, mem_rangeInts, hrdepth] at hc₁
    rcases hsides with hpos | hneg
    · -- positive side: children's minimum column is ≥ m ≥ 1
      have hfrm := hfr m hmem_m
      have hm_le_c₁ : m ≤ c₁ := by
        rcases hshape.1 with hst | ⟨cs, hcs, hst⟩
        · have hnum : 0 < row.start_slope.numerator :=
            @start_num_pos_of_round_up row.start_slope row.depth hs1 (by omega) (by omega)
          have := round_up_depth_mono hs1 hnum.le (by omega : (0:Int) < row.depth)
            (by omega : row.depth ≤ row.depth + 1)
          rw [hst] at hc₁
          omega
        · have hcs1 : 1 ≤ cs := by
            have := hbounds cs hcs
            rw [Row.tiles, mem_rangeInts] at hcs
            omega
          have h1 : cs ≤ Row.round_ties_up_frac (Row.slope cs row.depth) (row.depth + 1) :=
            round_up_slope_ge hcs1 (by omega)
          rw [hst] at hc₁
          rw [Row.tiles, mem_rangeInts] at hcs
          omega
      have hc₁1 : 1 ≤ c₁ := by omega
      have : m * m ≤ c₁ * c₁ := by nlinarith
      have hR2 : R * R < row.depth * row.depth + m * m := hfrm
      rw [hrdepth]
      nlinarith
    · -- negative side: children's maximum column is ≤ M ≤ -1
      have hfrM := hfr M hmem_M
      have hc₁_le_M : c₁ ≤ M := by
        rcases hshape.2 with ⟨ce, hce, hend⟩ | hend
        · have hbnd := hbounds ce hce
          rw [Row.tiles, mem_rangeInts] at hce
          have h1 : Row.round_ties_down_frac (Row.slope ce row.depth) (row.depth + 1) ≤ ce :=
            round_down_slope_le (by omega) (by omega)
          rw [hend] at hc₁
          omega
        · have hnum : row.end_slope.numerator < 0 :=
            @end_num_neg_of_round_down row.end_slope row.depth he1 (by omega) (by omega)
          have := round_down_depth_mono he1 hnum.le (by omega : (0:Int) < row.depth)
            (by omega : row.depth ≤ row.depth + 1)
          rw [hend] at hc₁
          omega
      have : M * M ≤ c₁ * c₁ := by nlinarith
      have hR2 : R * R < row.depth * row.depth + M * M := hfrM
      rw [hrdepth]
      nlinarith

/-- The whole ND subtree of a fringe row (at any depth ≤ cutoff) marks only
tiles outside the circle. -/
theorem fringe_subtree (is_blocking : Point → Bool) (origin : Point) (q : Cardinal)
    (R : Int) :
    ∀ (gas : Nat) (row : Row), RowInv row → RowFringe R row →
      ∀ p ∈ scanRowsND is_blocking origin q R gas row,
        R * R < (p.x - origin.x) * (p.x - origin.x) + (p.y - origin.y) * (p.y - origin.y) := by
  intro gas
  induction gas with
  | zero => intro row _ _ p hp; simp [scanRowsND] at hp
  | succ gas ih =>
    intro row hinv hfr p hp
    simp only [scanRowsND] at hp
    split at hp
    · simp at hp
    · rename_i hdepth
      push_neg at hdepth
      simp only [List.mem_append, List.mem_flatten, List.mem_map] at hp
      rcases hp with hp | ⟨l, ⟨child, hchild, rfl⟩, hp⟩
      · simp only [processRowND] at hp
        obtain ⟨c, hc, rfl⟩ := scanColsND_marks_shape _ _ _ _ hp
        rw [transform_dist]
        exact hfr c hc
      · obtain ⟨hcinv, _⟩ := processRowND_children_inv is_blocking origin q row hinv
          child hchild
        exact ih child hcinv
          (fringe_children is_blocking origin q R row hinv hfr (by omega) child hchild)
          p hp

/-- Every mark of the distance-checked sweep comes from one of its columns
(and hence lies inside the circle of the sweep's squared radius). -/
theorem scanCols_marks_shape {is_blocking : Point → Bool} {origin : Point} {q : Cardinal}
    {mrs d : Int} {e : Fraction} :
    ∀ (cols : List Int) (s : Fraction) (prev : Option Bool) (p : Point),
      p ∈ (scanCols is_blocking origin q mrs d e cols s prev).marks →
      ∃ c ∈ cols, p = Quadrant.transform q origin d c := by
  intro cols
  induction cols with
  | nil => intro s prev p hp; simp [scanCols] at hp
  | cons col cols ih =>
    intro s prev p hp
    simp only [scanCols] at hp
    split at hp
    · obtain ⟨c, hc, rfl⟩ := ih _ _ _ hp
      exact ⟨c, List.mem_cons_of_mem _ hc, rfl⟩
    · simp only [List.mem_append] at hp
      rcases hp with hp | hp
      · split at hp
        · rcases List.mem_singleton.mp hp with rfl
          exact ⟨col, List.mem_cons_self _ _, rfl⟩
        · simp at hp
      · obtain ⟨c, hc, rfl⟩ := ih _ _ _ hp
        exact ⟨c, List.mem_cons_of_mem _ hc, rfl⟩

/-- Matching of a distance-checked child row with an ND child row spawned
at the same column: same depth, related start slopes, equal end slopes. -/
def ChildPair (R d : Int) (r r' : Row) : Prop :=
  r.depth = d + 1 ∧ r'.depth = d + 1 ∧
  0 < r.start_slope.denominator ∧ 0 < r'.start_slope.denominator ∧
  EqS R (d + 1) r.start_slope r'.start_slope ∧ r.end_slope = r'.end_slope

/-- Synchronized sweep: over columns that are all inside the circle, the
distance-checked sweep (with end slope `e`) and the ND sweep (with end
slope `e'`, `EqE`-related to `e`) produce the same marks, the same final
`prev`, `EqS`-related final start slopes, and pairwise-matched children. -/
theorem scanCols_sync (is_blocking : Point → Bool) (origin : Point) (q : Cardinal)
    (R d : Int) (e e' : Fraction) (hd : 1 ≤ d)
    (hde : 0 < e.denominator) (hde' : 0 < e'.denominator) (hE : EqE R d e' e) :
    ∀ (cols : List Int) (s s' : Fraction) (prev : Option Bool),
      0 < s.denominator → 0 < s'.denominator → EqS R d s s' →
      (∀ c ∈ cols, d * d + c * c ≤ R * R) →
      (scanCols is_blocking origin q (R * R) d e cols s prev).marks =
          (scanColsND is_blocking origin q d e' cols s' prev).marks ∧
        (scanCols is_blocking origin q (R * R) d e cols s prev).prev =
          (scanColsND is_blocking origin q d e' cols s' prev).prev ∧
        0 < (scanCols is_blocking origin q (R * R) d e cols s prev).start_slope.denominator ∧
        0 < (scanColsND is_blocking origin q d e' cols s' prev).start_slope.denominator ∧
        EqS R d (scanCols is_blocking origin q (R * R) d e cols s prev).start_slope
          (scanColsND is_blocking origin q d e' cols s' prev).start_slope ∧
        List.Forall₂ (ChildPair R d)
          (scanCols is_blocking origin q (R * R) d e cols s prev).children
          (scanColsND is_blocking origin q d e' cols s' prev).children := by
  intro cols
  induction cols with
  | nil =>
    intro s s' prev hds hds' hS _
    exact ⟨rfl, rfl, hds, hds', hS, List.Forall₂.nil⟩
  | cons col cols ih =>
    intro s s' prev hds hds' hS hdisk
    have hdc : d * d + col * col ≤ R * R := hdisk col (List.mem_cons_self _ _)
    have hdisk2 : ∀ c ∈ cols, d * d + c * c ≤ R * R := fun c hc =>
      hdisk c (List.mem_cons_of_mem _ hc)
    have hnd : ¬(((Quadrant.transform q origin d col).x - origin.x) *
          ((Quadrant.transform q origin d col).x - origin.x) +
        ((Quadrant.transform q origin d col).y - origin.y) *
          ((Quadrant.transform q origin d col).y - origin.y) > R * R) := by
      rw [transform_dist]; omega
    have hwv : Row.is_wall_visible ⟨d, s, e⟩ col = Row.is_wall_visible ⟨d, s', e'⟩ col := by
      obtain ⟨_, h2, _⟩ := hS d col le_rfl hdc
      obtain ⟨_, h2', _⟩ := hE d col le_rfl hdc
      simp only [Row.is_wall_visible]
      rw [h2, ← h2']
    have hsym : Row.is_symmetric ⟨d, s, e⟩ col = Row.is_symmetric ⟨d, s', e'⟩ col := by
      obtain ⟨h1, _, _⟩ := hS d col le_rfl hdc
      obtain ⟨h1', _, _⟩ := hE d col le_rfl hdc
      simp only [Row.is_symmetric]
      rw [h1, ← h1']
    have hsld : 0 < (Row.slope col d).denominator := by
      simp only [Row.slope, Fraction.new]
      omega
    have hpairchild : ChildPair R d (Row.new (d + 1) s (Row.slope col d))
        (Row.new (d + 1) s' (Row.slope col d)) := by
      refine ⟨rfl, rfl, hds, hds', EqS_mono (by omega) hS, rfl⟩
    rcases prev with _ | pb
    · simp only [scanCols, scanColsND, if_neg hnd, hwv, hsym, List.nil_append]
      obtain ⟨ihm, ihp, ihd1, ihd2, ihS, ihF⟩ :=
        ih s s' (some (is_blocking (Quadrant.transform q origin d col))) hds hds' hS hdisk2
      exact ⟨by rw [ihm], ihp, ihd1, ihd2, ihS, ihF⟩
    · cases hpb : pb <;> cases hblk : is_blocking (Quadrant.transform q origin d col) <;>
        simp only [scanCols, scanColsND, if_neg hnd, hwv, hsym, hblk, Bool.not_false,
          Bool.not_true, Bool.and_false, Bool.and_true, Bool.false_and, Bool.true_and,
          Bool.false_eq_true, Bool.true_eq_false, eq_self_iff_true, if_true, if_false,
          List.nil_append]
      -- (pb = false, blocking = false): no transition
      · obtain ⟨ihm, ihp, ihd1, ihd2, ihS, ihF⟩ :=
          ih s s' (some false) hds hds' hS hdisk2
        exact ⟨by rw [ihm], ihp, ihd1, ihd2, ihS, ihF⟩
      -- (pb = false, blocking = true): push fires on both sides
      · obtain ⟨ihm, ihp, ihd1, ihd2, ihS, ihF⟩ :=
          ih s s' (some true) hds hds' hS hdisk2
        exact ⟨by rw [ihm], ihp, ihd1, ihd2, ihS, List.Forall₂.cons hpairchild ihF⟩
      -- (pb = true, blocking = false): start update fires on both sides
      · obtain ⟨ihm, ihp, ihd1, ihd2, ihS, ihF⟩ :=
          ih (Row.slope col d) (Row.slope col d) (some false) hsld hsld
            (EqS_refl R d (Row.slope col d)) hdisk2
        exact ⟨by rw [ihm], ihp, ihd1, ihd2, ihS, ihF⟩
      -- (pb = true, blocking = true): no transition
      · obtain ⟨ihm, ihp, ihd1, ihd2, ihS, ihF⟩ :=
          ih s s' (some true) hds hds' hS hdisk2
        exact ⟨by rw [ihm], ihp, ihd1, ihd2, ihS, ihF⟩

/-- Relation between the children stacks of the distance-checked and the ND
processing of related rows: ND-only rows are fringe rows (their subtrees
never touch the circle), and the remaining rows match pairwise. -/
inductive CRel (R : Int) : List Row → List Row → Prop where
  | nil : CRel R [] []
  | junk {rowN : Row} {cd cn : List Row} : RowFringe R rowN → CRel R cd cn →
      CRel R cd (rowN :: cn)
  | pair {r r' : Row} {cd cn : List Row} : r.depth = r'.depth →
      EqS R r.depth r.start_slope r'.start_slope →
      EqE R r.depth r'.end_slope r.end_slope →
      CRel R cd cn → CRel R (r :: cd) (r' :: cn)

theorem CRel_nil_of_fringe {R : Int} :
    ∀ {l : List Row}, (∀ r ∈ l, RowFringe R r) → CRel R [] l := by
  intro l
  induction l with
  | nil => intro _; exact CRel.nil
  | cons r l ih =>
    intro hf
    exact CRel.junk (hf r (List.mem_cons_self _ _))
      (ih (fun x hx => hf x (List.mem_cons_of_mem _ hx)))

theorem CRel_junk_append {R : Int} :
    ∀ {jl cd cn : List Row}, (∀ r ∈ jl, RowFringe R r) → CRel R cd cn →
      CRel R cd (jl ++ cn) := by
  intro jl
  induction jl with
  | nil => intro cd cn _ h; exact h
  | cons r l ih =>
    intro cd cn hf h
    exact CRel.junk (hf r (List.mem_cons_self _ _))
      (ih (fun x hx => hf x (List.mem_cons_of_mem _ hx)) h)

theorem CRel_pairs_append {R d : Int} {md mn : List Row}
    (h : List.Forall₂ (ChildPair R d) md mn) :
    ∀ {cd cn : List Row}, CRel R cd cn → CRel R (md ++ cd) (mn ++ cn) := by
  induction h with
  | nil => intro cd cn hrest; exact hrest
  | cons hpair _ ih =>
    intro cd cn hrest
    obtain ⟨hd1, hd2, _, _, hS, hEnd⟩ := hpair
    exact CRel.pair (by rw [hd1, hd2]) (by rw [hd1]; exact hS)
      (by rw [hd1, ← hEnd]; exact EqE_refl _ _ _) (ih hrest)

/-- A start slope is safe at depth `d` when every column at or beyond its
next-depth minimum column lies outside the circle. -/
def StartSafe (R d : Int) (s : Fraction) : Prop :=
  ∀ c₁ : Int, Row.round_ties_up_frac s (d + 1) ≤ c₁ →
    R * R < (d + 1) * (d + 1) + c₁ * c₁

/-- Sweeping out-of-circle columns on the right fringe after the distance
side has already finished its transitions: every pushed child is a fringe
row, and a final floor-`prev` leaves a safe start slope (so the trailing
child is a fringe row too). -/
theorem scanColsND_junk (is_blocking : Point → Bool) (origin : Point) (q : Cardinal)
    (R d : Int) (e : Fraction) (hd : 1 ≤ d) :
    ∀ (cols : List Int) (s : Fraction) (pb : Bool),
      (∀ c ∈ cols, 1 ≤ c ∧ c ≤ d ∧ R * R < d * d + c * c) →
      (pb = false → StartSafe R d s) →
      (∀ r ∈ (scanColsND is_blocking origin q d e cols s (some pb)).children,
        RowFringe R r) ∧
      ((scanColsND is_blocking origin q d e cols s (some pb)).prev = some false →
        StartSafe R d (scanColsND is_blocking origin q d e cols s (some pb)).start_slope) := by
  intro cols
  induction cols with
  | nil =>
    intro s pb _ hsafe
    refine ⟨by simp [scanColsND], ?_⟩
    intro hprev
    simp only [scanColsND, Option.some.injEq] at hprev
    exact hsafe hprev
  | cons col cols ih =>
    intro s pb hcols hsafe
    have hcol := hcols col (List.mem_cons_self _ _)
    have hcols2 : ∀ c ∈ cols, 1 ≤ c ∧ c ≤ d ∧ R * R < d * d + c * c := fun c hc =>
      hcols c (List.mem_cons_of_mem _ hc)
    have hsafe_slope : StartSafe R d (Row.slope col d) := by
      intro c₁ hc₁
      have hge : col ≤ c₁ := le_trans (round_up_slope_ge hcol.1 hd) hc₁
      have h1 : col * col ≤ c₁ * c₁ := by nlinarith [hcol.1]
      nlinarith [hcol.2.2]
    rcases Bool.eq_false_or_eq_true pb with hpb | hpb <;> subst hpb <;>
      cases hblk : is_blocking (Quadrant.transform q origin d col) <;>
      simp only [scanColsND, hblk, Bool.not_false, Bool.not_true, Bool.and_false,
        Bool.and_true, Bool.false_and, Bool.true_and, Bool.false_eq_true, Bool.true_eq_false,
        eq_self_iff_true, if_true, if_false, List.nil_append]
    -- (pb = true, blocking = false): start update fires
    · exact ih (Row.slope col d) false hcols2 (fun _ => hsafe_slope)
    -- (pb = true, blocking = true): no transition
    · exact ih s true hcols2 (fun h => absurd h (by simp))
    -- (pb = false, blocking = false): no transition
    · exact ih s false hcols2 (fun _ => hsafe rfl)
    -- (pb = false, blocking = true): push fires
    · have hrest := ih s true hcols2 (fun h => absurd h (by simp))
      refine ⟨?_, hrest.2⟩
      intro r hr
      rcases List.mem_cons.mp hr with rfl | hr
      · intro c₁ hc₁
        simp only [Row.new, Row.tiles, mem_rangeInts] at hc₁
        exact hsafe rfl c₁ hc₁.1
      · exact hrest.1 r hr

/-- Sweeping out-of-circle columns on the right fringe while the distance
side finished on a floor tile: the first wall push of the ND sweep pairs
with the distance side's trailing child, and everything after it is fringe. -/
theorem scanColsND_cont (is_blocking : Point → Bool) (origin : Point) (q : Cardinal)
    (R d : Int) (e e' : Fraction) (hd : 1 ≤ d)
    (hde : 0 < e.denominator) (hde' : 0 < e'.denominator) (hE : EqE R d e' e)
    (sD : Fraction) :
    ∀ (cols : List Int) (s' : Fraction),
      0 < s'.denominator → EqS R d sD s' →
      (∀ c ∈ cols, 1 ≤ c ∧ c ≤ d ∧ R * R < d * d + c * c ∧
        (2 * c - 1) * e'.denominator < e'.numerator * (2 * d)) →
      CRel R [Row.new (d + 1) sD e]
        ((scanColsND is_blocking origin q d e' cols s' (some false)).children ++
          (if (scanColsND is_blocking origin q d e' cols s' (some false)).prev = some false
            then [Row.new (d + 1)
              (scanColsND is_blocking origin q d e' cols s' (some false)).start_slope e']
            else [])) := by
  intro cols
  induction cols with
  | nil =>
    intro s' hds' hS _
    simp only [scanColsND, List.nil_append, if_pos rfl]
    exact CRel.pair rfl (EqS_mono (show d ≤ d + 1 by omega) hS)
      (EqE_mono (show d ≤ d + 1 by omega) hE) CRel.nil
  | cons col cols ih =>
    intro s' hds' hS hcols
    have hcol := hcols col (List.mem_cons_self _ _)
    have hcols2 : ∀ c ∈ cols, 1 ≤ c ∧ c ≤ d ∧ R * R < d * d + c * c ∧
        (2 * c - 1) * e'.denominator < e'.numerator * (2 * d) := fun c hc =>
      hcols c (List.mem_cons_of_mem _ hc)
    cases hblk : is_blocking (Quadrant.transform q origin d col) <;>
      simp only [scanColsND, hblk, Bool.not_false, Bool.not_true, Bool.and_false,
        Bool.and_true, Bool.false_and, Bool.true_and, Bool.false_eq_true, Bool.true_eq_false,
        eq_self_iff_true, if_true, if_false, List.nil_append]
    -- blocking = false: state unchanged
    · exact ih s' hds' hS hcols2
    -- blocking = true: the push is the continuation child
    · have hEsnoc : EqE R d (Row.slope col d) e :=
        EqE_snoc hde' hd hcol.1 hcol.2.2.1 hcol.2.2.2 hE
      have hjunk := scanColsND_junk is_blocking origin q R d e' hd cols s' true
        (fun c hc => ⟨(hcols2 c hc).1, (hcols2 c hc).2.1, (hcols2 c hc).2.2.1⟩)
        (fun h => absurd h (by simp))
      rw [List.cons_append]
      refine CRel.pair rfl (EqS_mono (show d ≤ d + 1 by omega) hS)
        (EqE_mono (show d ≤ d + 1 by omega) hEsnoc) ?_
      refine CRel_nil_of_fringe ?_
      intro r hr
      rcases List.mem_append.mp hr with hr | hr
      · exact hjunk.1 r hr
      · split at hr
        · rename_i hprev
          rcases List.mem_singleton.mp hr with rfl
          intro c₁ hc₁
          simp only [Row.new, Row.tiles, mem_rangeInts] at hc₁
          exact hjunk.2 hprev c₁ hc₁.1
        · simp at hr

/-- Sweeping out-of-circle columns on the left fringe preserves the `EqS`
relation of the evolving start slope to the distance side's (unchanged)
start slope. -/
theorem scanColsND_left (is_blocking : Point → Bool) (origin : Point) (q : Cardinal)
    (R d : Int) (e : Fraction) (hd : 1 ≤ d) (sD : Fraction) :
    ∀ (cols : List Int) (s' : Fraction) (prev : Option Bool),
      0 < s'.denominator → EqS R d sD s' →
      (∀ c ∈ cols, c ≤ -1 ∧ R * R < d * d + c * c) →
      cols.Pairwise (· < ·) →
      (prev = none ∨ ∀ c ∈ cols, s'.numerator * (2 * d) < (2 * c - 1) * s'.denominator) →
      (∀ c2 ∈ cols, (∃ c1 ∈ cols, c1 < c2) →
        s'.numerator * (2 * d) < (2 * c2 - 1) * s'.denominator) →
      0 < (scanColsND is_blocking origin q d e cols s' prev).start_slope.denominator ∧
      EqS R d sD (scanColsND is_blocking origin q d e cols s' prev).start_slope := by
  intro cols
  induction cols with
  | nil =>
    intro s' prev hds' hS _ _ _ _
    exact ⟨hds', hS⟩
  | cons col cols ih =>
    intro s' prev hds' hS hfr hpair hdom hdom2
    have hcol := hfr col (List.mem_cons_self _ _)
    have hfr2 : ∀ c ∈ cols, c ≤ -1 ∧ R * R < d * d + c * c := fun c hc =>
      hfr c (List.mem_cons_of_mem _ hc)
    have hpair2 : cols.Pairwise (· < ·) := (List.pairwise_cons.mp hpair).2
    have hgt : ∀ c ∈ cols, col < c := (List.pairwise_cons.mp hpair).1
    -- dominance of the unchanged start slope over the remaining columns
    have hdom_tail : ∀ c ∈ cols, s'.numerator * (2 * d) < (2 * c - 1) * s'.denominator :=
      fun c hc => hdom2 c (List.mem_cons_of_mem _ hc)
        ⟨col, List.mem_cons_self _ _, hgt c hc⟩
    have hdom2_tail : ∀ c2 ∈ cols, (∃ c1 ∈ cols, c1 < c2) →
        s'.numerator * (2 * d) < (2 * c2 - 1) * s'.denominator :=
      fun c2 hc2 _ => hdom_tail c2 hc2
    -- dominance of the advanced slope over the remaining columns
    have hsld : 0 < (Row.slope col d).denominator := by
      simp only [Row.slope, Fraction.new]
      omega
    have hdom_slope : ∀ c ∈ cols,
        (Row.slope col d).numerator * (2 * d) <
          (2 * c - 1) * (Row.slope col d).denominator := by
      intro c hc
      simp only [Row.slope, Fraction.new]
      have := hgt c hc
      nlinarith
    have hdom2_slope : ∀ c2 ∈ cols, (∃ c1 ∈ cols, c1 < c2) →
        (Row.slope col d).numerator * (2 * d) <
          (2 * c2 - 1) * (Row.slope col d).denominator :=
      fun c2 hc2 _ => hdom_slope c2 hc2
    rcases prev with _ | pb
    · simp only [scanColsND]
      exact ih s' (some (is_blocking (Quadrant.transform q origin d col)))
        hds' hS hfr2 hpair2 (Or.inr hdom_tail) hdom2_tail
    · have hltcol : s'.numerator * (2 * d) < (2 * col - 1) * s'.denominator := by
        rcases hdom with h | h
        · exact absurd h (by simp)
        · exact h col (List.mem_cons_self _ _)
      have hSnew : EqS R d sD (Row.slope col d) :=
        EqS_snoc hds' hd hcol.1 hcol.2 hltcol hS
      cases hpb : pb <;> cases hblk : is_blocking (Quadrant.transform q origin d col) <;>
        simp only [scanColsND, hblk, Bool.not_false, Bool.not_true, Bool.and_false,
          Bool.and_true, Bool.false_and, Bool.true_and, Bool.false_eq_true,
          Bool.true_eq_false, eq_self_iff_true, if_true, if_false]
      · exact ih s' (some false) hds' hS hfr2 hpair2 (Or.inr hdom_tail) hdom2_tail
      · exact ih s' (some true) hds' hS hfr2 hpair2 (Or.inr hdom_tail) hdom2_tail
      · exact ih (Row.slope col d) (some false) hsld hSnew hfr2 hpair2
          (Or.inr hdom_slope) hdom2_slope
      · exact ih s' (some true) hds' hS hfr2 hpair2 (Or.inr hdom_tail) hdom2_tail

/-- Children spawned while sweeping left-fringe columns are fringe rows:
their end slopes clip them at or below an out-of-circle negative column. -/
theorem left_children_fringe (is_blocking : Point → Bool) (origin : Point) (q : Cardinal)
    (R d : Int) (e : Fraction) (hd : 1 ≤ d) (cols : List Int) (s' : Fraction)
    (prev : Option Bool) (hfr : ∀ c ∈ cols, c ≤ -1 ∧ R * R < d * d + c * c) :
    ∀ r ∈ (scanColsND is_blocking origin q d e cols s' prev).children, RowFringe R r := by
  intro r hr
  obtain ⟨hrdepth, _, ce, hce, hrend⟩ := (scanColsND_shape cols s' prev).2 r hr
  obtain ⟨hce1, hce2⟩ := hfr ce hce
  intro c₁ hc₁
  rw [Row.tiles, mem_rangeInts, hrdepth, hrend] at hc₁
  have hdown : Row.round_ties_down_frac (Row.slope ce d) (d + 1) ≤ ce :=
    round_down_slope_le (by omega) hd
  have hle : c₁ ≤ ce := by omega
  have hsq : ce * ce ≤ c₁ * c₁ := by nlinarith
  rw [hrdepth]
  nlinarith

/-- Processing the first in-circle column `lo`: the distance side enters
with `prev = none`, the ND side with an arbitrary `prev` (having possibly
swept the left fringe).  Marks agree, both sides leave with the same `some`
`prev`, the distance start slope is untouched, the ND start slope stays
`EqS`-related, and any ND child pushed here is a fringe row. -/
theorem scanCols_boundary (is_blocking : Point → Bool) (origin : Point) (q : Cardinal)
    (R d : Int) (e e' : Fraction) (hd : 1 ≤ d)
    (hde : 0 < e.denominator) (hde' : 0 < e'.denominator) (hE : EqE R d e' e)
    (lo : Int) (s s' : Fraction) (prevN : Option Bool)
    (hds : 0 < s.denominator) (hds' : 0 < s'.denominator) (hS : EqS R d s s')
    (hdisk : d * d + lo * lo ≤ R * R)
    (hguard : prevN = none ∨ (lo ≤ 0 ∧ R * R < d * d + (lo - 1) * (lo - 1) ∧
      s'.numerator * (2 * d) < (2 * lo - 1) * s'.denominator)) :
    (scanCols is_blocking origin q (R * R) d e [lo] s none).marks =
        (scanColsND is_blocking origin q d e' [lo] s' prevN).marks ∧
      (scanCols is_blocking origin q (R * R) d e [lo] s none).prev =
        (scanColsND is_blocking origin q d e' [lo] s' prevN).prev ∧
      (scanCols is_blocking origin q (R * R) d e [lo] s none).prev =
        some (is_blocking (Quadrant.transform q origin d lo)) ∧
      (scanCols is_blocking origin q (R * R) d e [lo] s none).start_slope = s ∧
      0 < (scanColsND is_blocking origin q d e' [lo] s' prevN).start_slope.denominator ∧
      EqS R d s (scanColsND is_blocking origin q d e' [lo] s' prevN).start_slope ∧
      (scanCols is_blocking origin q (R * R) d e [lo] s none).children = [] ∧
      ∀ r ∈ (scanColsND is_blocking origin q d e' [lo] s' prevN).children,
        RowFringe R r := by
  have hnd : ¬(((Quadrant.transform q origin d lo).x - origin.x) *
        ((Quadrant.transform q origin d lo).x - origin.x) +
      ((Quadrant.transform q origin d lo).y - origin.y) *
        ((Quadrant.transform q origin d lo).y - origin.y) > R * R) := by
    rw [transform_dist]; omega
  have hwv : Row.is_wall_visible ⟨d, s, e⟩ lo = Row.is_wall_visible ⟨d, s', e'⟩ lo := by
    obtain ⟨_, h2, _⟩ := hS d lo le_rfl hdisk
    obtain ⟨_, h2', _⟩ := hE d lo le_rfl hdisk
    simp only [Row.is_wall_visible]
    rw [h2, ← h2']
  have hsym : Row.is_symmetric ⟨d, s, e⟩ lo = Row.is_symmetric ⟨d, s', e'⟩ lo := by
    obtain ⟨h1, _, _⟩ := hS d lo le_rfl hdisk
    obtain ⟨h1', _, _⟩ := hE d lo le_rfl hdisk
    simp only [Row.is_symmetric]
    rw [h1, ← h1']
  rcases prevN with _ | pb
  · -- ND also enters with `none`: no transition on either side
    simp only [scanCols, scanColsND, if_neg hnd, hwv, hsym, List.nil_append, List.append_nil]
    exact ⟨by trivial, by trivial, by trivial, by trivial, hds', hS, by trivial, by simp⟩
  · obtain ⟨hlo, hfrlo, hlt⟩ : lo ≤ 0 ∧ R * R < d * d + (lo - 1) * (lo - 1) ∧
        s'.numerator * (2 * d) < (2 * lo - 1) * s'.denominator := by
      rcases hguard with h | h
      · exact absurd h (by simp)
      · exact h
    have hsld : 0 < (Row.slope lo d).denominator := by
      simp only [Row.slope, Fraction.new]
      omega
    have hSlo : EqS R d s (Row.slope lo d) := EqS_snoc_lo hds' hd hlo hfrlo hlt hS
    have hchildfr : RowFringe R (Row.new (d + 1) s' (Row.slope lo d)) := by
      intro c₁ hc₁
      simp only [Row.new, Row.tiles, mem_rangeInts] at hc₁
      have h2 := hc₁.2
      rw [le_round_down_iff (by simp only [Row.slope, Fraction.new]; omega)
        (by omega : (0:Int) < d + 1)] at h2
      simp only [Row.slope, Fraction.new] at h2
      have := fringe_left_lo R d (d + 1) lo c₁ hd (by omega) hlo hfrlo (by nlinarith)
      simp only [Row.new]
      exact this
    cases hpb : pb <;> cases hblk : is_blocking (Quadrant.transform q origin d lo) <;>
      simp only [scanCols, scanColsND, if_neg hnd, hwv, hsym, hblk, Bool.not_false,
        Bool.not_true, Bool.and_false, Bool.and_true, Bool.false_and, Bool.true_and,
        Bool.false_eq_true, Bool.true_eq_false, eq_self_iff_true, if_true, if_false,
        List.nil_append, List.append_nil]
    -- (pb = false, blocking = false): no ND transition
    · exact ⟨by trivial, by trivial, by trivial, by trivial, hds', hS, by trivial, by simp⟩
    -- (pb = false, blocking = true): ND push fires
    · refine ⟨by trivial, by trivial, by trivial, by trivial, hds', hS, by trivial, ?_⟩
      intro r hr
      rcases List.mem_singleton.mp hr with rfl
      exact hchildfr
    -- (pb = true, blocking = false): ND start update fires
    · exact ⟨by trivial, by trivial, by trivial, by trivial, hsld, hSlo, by trivial, by simp⟩
    -- (pb = true, blocking = true): no ND transition
    · exact ⟨by trivial, by trivial, by trivial, by trivial, hds', hS, by trivial, by simp⟩

/-- Entering a sweep with a `some` `prev` keeps `prev` as a `some`. -/
theorem scanColsND_prev_propagate {is_blocking : Point → Bool} {origin : Point}
    {q : Cardinal} {d : Int} {e : Fraction} :
    ∀ (cols : List Int) (s : Fraction) (pb : Bool),
      ∃ bb : Bool, (scanColsND is_blocking origin q d e cols s (some pb)).prev = some bb := by
  intro cols
  induction cols with
  | nil => intro s pb; exact ⟨pb, rfl⟩
  | cons col cols ih => intro s pb; exact ih _ (is_blocking (Quadrant.transform q origin d col))

theorem rangeInts_singleton (a : Int) : rangeInts a a = [a] := by
  rw [rangeInts_eq_cons le_rfl, rangeInts_nil (by omega)]

/-- Column membership in the circle at depth `d`, via the integer square
root used by `compute_fov_circle`. -/
theorem disk_col_iff {R d c : Int} (hd : 1 ≤ d) (hdR : d ≤ R) :
    d * d + c * c ≤ R * R ↔
      (-(isqrt (R * R - d * d)) ≤ c ∧ c ≤ isqrt (R * R - d * d)) := by
  have hK : (0:Int) ≤ R * R - d * d := by nlinarith
  have h := le_isqrt_iff (abs_nonneg c) hK
  rw [abs_mul_abs_self] at h
  constructor
  · intro hc
    have habs : |c| ≤ isqrt (R * R - d * d) := h.mpr (by omega)
    exact abs_le.mp habs
  · rintro ⟨h1, h2⟩
    have := h.mp (abs_le.mpr ⟨h1, h2⟩)
    omega

/-- A fully skipped prefix leaves the distance sweep unchanged. -/
theorem scanCols_skip_prefix (is_blocking : Point → Bool) (origin : Point) (q : Cardinal)
    (mrs d : Int) (e : Fraction) (cs₁ cs₂ : List Int) (s : Fraction) (prev : Option Bool)
    (h : ∀ c ∈ cs₁, mrs < d * d + c * c) :
    scanCols is_blocking origin q mrs d e (cs₁ ++ cs₂) s prev =
      scanCols is_blocking origin q mrs d e cs₂ s prev := by
  rw [scanCols_append, scanCols_skip_all is_blocking origin q mrs d e cs₁ s prev h]
  simp

/-- A fully skipped suffix leaves the distance sweep unchanged. -/
theorem scanCols_skip_suf (is_blocking : Point → Bool) (origin : Point) (q : Cardinal)
    (mrs d : Int) (e : Fraction) (cs₁ cs₂ : List Int) (s : Fraction) (prev : Option Bool)
    (h : ∀ c ∈ cs₂, mrs < d * d + c * c) :
    scanCols is_blocking origin q mrs d e (cs₁ ++ cs₂) s prev =
      scanCols is_blocking origin q mrs d e cs₁ s prev := by
  rw [scanCols_append, scanCols_skip_all is_blocking origin q mrs d e cs₂ _ _ h]
  simp

/-- Core equivalence for one row step: against `EqS`/`EqE`-related row
states, the distance-checked processing marks exactly the in-circle marks
of the ND processing, and the two children stacks are `CRel`-related. -/
theorem processRow_rel (is_blocking : Point → Bool) (origin : Point) (q : Cardinal)
    (R d : Int) (s e s' e' : Fraction) (hd : 1 ≤ d) (hdR : d ≤ R)
    (hs1 : 0 < s.denominator) (he1 : 0 < e.denominator)
    (hs1' : 0 < s'.denominator) (he1' : 0 < e'.denominator)
    (hs2 : -s.denominator ≤ s.numerator) (he2 : e.numerator ≤ e.denominator)
    (hs2' : -s'.denominator ≤ s'.numerator) (he2' : e'.numerator ≤ e'.denominator)
    (hS : EqS R d s s') (hE : EqE R d e' e) :
    (∀ p : Point,
      (p.x - origin.x) * (p.x - origin.x) + (p.y - origin.y) * (p.y - origin.y) ≤ R * R →
      (p ∈ (processRow is_blocking origin q (R * R) ⟨d, s, e⟩).1 ↔
        p ∈ (processRowND is_blocking origin q ⟨d, s', e'⟩).1)) ∧
    CRel R (processRow is_blocking origin q (R * R) ⟨d, s, e⟩).2
      (processRowND is_blocking origin q ⟨d, s', e'⟩).2 := by
  have htiles_eq : (Row.mk d s e).tiles =
      rangeInts (Row.round_ties_up_frac s d) (Row.round_ties_down_frac e d) := rfl
  have htilesN_eq : (Row.mk d s' e').tiles =
      rangeInts (Row.round_ties_up_frac s' d) (Row.round_ties_down_frac e' d) := rfl
  have hw0 : 0 ≤ isqrt (R * R - d * d) := (isqrt_spec _ (by nlinarith)).1
  obtain ⟨w, hwdef⟩ : ∃ w : Int, w = isqrt (R * R - d * d) := ⟨_, rfl⟩
  rw [← hwdef] at hw0
  have hdiskc : ∀ c : Int, d * d + c * c ≤ R * R ↔ (-w ≤ c ∧ c ≤ w) := by
    intro c
    rw [hwdef]
    exact disk_col_iff hd hdR
  by_cases hA : ∃ c : Int, Row.round_ties_up_frac s d ≤ c ∧
    c ≤ Row.round_ties_down_frac e d ∧ -w ≤ c ∧ c ≤ w
  case neg =>
    -- no in-circle column in the distance row: the distance side does nothing
    push_neg at hA
    have hfrD : ∀ c ∈ rangeInts (Row.round_ties_up_frac s d) (Row.round_ties_down_frac e d),
        R * R < d * d + c * c := by
      intro c hc
      rw [mem_rangeInts] at hc
      by_contra hcon
      push_neg at hcon
      obtain ⟨hw1, hw2⟩ := (hdiskc c).mp hcon
      have := hA c hc.1 hc.2 hw1
      omega
    have houtD := scanCols_skip_all is_blocking origin q (R * R) d e
      (rangeInts (Row.round_ties_up_frac s d) (Row.round_ties_down_frac e d)) s none hfrD
    have hfrN : RowFringe R (Row.mk d s' e') := by
      intro c hc
      rw [htilesN_eq, mem_rangeInts] at hc
      show R * R < d * d + c * c
      by_contra hcon
      push_neg at hcon
      obtain ⟨hw1, hw2⟩ := (hdiskc c).mp hcon
      have hdc : d * d + c * c ≤ R * R := by omega
      have h1 : Row.round_ties_up_frac s d ≤ c := (hS d c le_rfl hdc).2.2.mpr hc.1
      have h2 : c ≤ Row.round_ties_down_frac e d := ((hE d c le_rfl hdc).2.2).mp hc.2
      have := hA c h1 h2 hw1
      omega
    have hdistnil : (processRow is_blocking origin q (R * R) (Row.mk d s e)).2 = [] := by
      show (scanCols is_blocking origin q (R * R) d e
          (rangeInts (Row.round_ties_up_frac s d) (Row.round_ties_down_frac e d)) s
          none).children ++
        (if (scanCols is_blocking origin q (R * R) d e
              (rangeInts (Row.round_ties_up_frac s d) (Row.round_ties_down_frac e d)) s
              none).prev = some false
          then [Row.new (d + 1)
              (scanCols is_blocking origin q (R * R) d e
                (rangeInts (Row.round_ties_up_frac s d) (Row.round_ties_down_frac e d)) s
                none).start_slope e]
          else []) = []
      rw [houtD]
      simp
    have hdistmarks : (processRow is_blocking origin q (R * R) (Row.mk d s e)).1 = [] := by
      show (scanCols is_blocking origin q (R * R) d e
          (rangeInts (Row.round_ties_up_frac s d) (Row.round_ties_down_frac e d)) s
          none).marks = []
      rw [houtD]
    refine ⟨?_, ?_⟩
    · intro p hp
      rw [hdistmarks]
      constructor
      · intro hmem
        simp at hmem
      · intro hmem
        exfalso
        have hmem' : p ∈ (scanColsND is_blocking origin q d e'
            (rangeInts (Row.round_ties_up_frac s' d) (Row.round_ties_down_frac e' d)) s'
            none).marks := hmem
        obtain ⟨c, hc, rfl⟩ := scanColsND_marks_shape _ _ _ _ hmem'
        rw [transform_dist] at hp
        have : R * R < d * d + c * c := by
          have := hfrN c (by rw [htilesN_eq]; exact hc)
          exact this
        omega
    · rw [hdistnil]
      refine CRel_nil_of_fringe ?_
      intro r hr
      exact fringe_children is_blocking origin q R (Row.mk d s' e')
        ⟨hd, hs1', he1', hs2', he2'⟩ hfrN (by show d ≤ R; omega) r hr
  case pos =>
    obtain ⟨c₀, hc01, hc02, hc03, hc04⟩ := hA
    obtain ⟨lo, hlo_m, hlo_w, hlo_ub⟩ :
        ∃ lo : Int, Row.round_ties_up_frac s d ≤ lo ∧ -w ≤ lo ∧
          ∀ c : Int, Row.round_ties_up_frac s d ≤ c → -w ≤ c → lo ≤ c :=
      ⟨max (Row.round_ties_up_frac s d) (-w), le_max_left _ _, le_max_right _ _,
        fun c h1 h2 => max_le h1 h2⟩
    obtain ⟨hi, hhi_M, hhi_w, hhi_lb⟩ :
        ∃ hi : Int, hi ≤ Row.round_ties_down_frac e d ∧ hi ≤ w ∧
          ∀ c : Int, c ≤ Row.round_ties_down_frac e d → c ≤ w → c ≤ hi :=
      ⟨min (Row.round_ties_down_frac e d) w, min_le_left _ _, min_le_right _ _,
        fun c h1 h2 => le_min h1 h2⟩
    have hlohi : lo ≤ hi := le_trans (hlo_ub c₀ hc01 hc03) (hhi_lb c₀ hc02 hc04)
    have hround_agree : ∀ c : Int, -w ≤ c → c ≤ w →
        ((Row.round_ties_up_frac s d ≤ c ↔ Row.round_ties_up_frac s' d ≤ c) ∧
          (c ≤ Row.round_ties_down_frac e d ↔ c ≤ Row.round_ties_down_frac e' d)) := by
      intro c h1 h2
      have hdc : d * d + c * c ≤ R * R := (hdiskc c).mpr ⟨h1, h2⟩
      exact ⟨(hS d c le_rfl hdc).2.2, ((hE d c le_rfl hdc).2.2).symm⟩
    have hmn_lo : Row.round_ties_up_frac s' d ≤ lo :=
      (hround_agree lo hlo_w (by omega)).1.mp hlo_m
    have hhi_Mn : hi ≤ Row.round_ties_down_frac e' d :=
      (hround_agree hi (by omega) hhi_w).2.mp hhi_M
    have hpreD_fr : ∀ c : Int, Row.round_ties_up_frac s d ≤ c → c ≤ lo - 1 →
        R * R < d * d + c * c := by
      intro c h1 h2
      by_contra hcon
      push_neg at hcon
      obtain ⟨hw1, hw2⟩ := (hdiskc c).mp hcon
      have := hlo_ub c h1 hw1
      omega
    have hpreN_fr : ∀ c : Int, Row.round_ties_up_frac s' d ≤ c → c ≤ lo - 1 →
        c ≤ -w - 1 ∧ R * R < d * d + c * c := by
      intro c h1 h2
      have hndisk : R * R < d * d + c * c := by
        by_contra hcon
        push_neg at hcon
        obtain ⟨hw1, hw2⟩ := (hdiskc c).mp hcon
        have hmd : Row.round_ties_up_frac s d ≤ c := (hround_agree c hw1 hw2).1.mpr h1
        have := hlo_ub c hmd hw1
        omega
      refine ⟨?_, hndisk⟩
      have hnin : ¬(-w ≤ c ∧ c ≤ w) := fun hcc => by
        have := (hdiskc c).mpr hcc
        omega
      omega
    have hsufD_fr : ∀ c : Int, hi + 1 ≤ c → c ≤ Row.round_ties_down_frac e d →
        R * R < d * d + c * c := by
      intro c h1 h2
      by_contra hcon
      push_neg at hcon
      obtain ⟨hw1, hw2⟩ := (hdiskc c).mp hcon
      have := hhi_lb c h2 hw2
      omega
    have hsufN_fr : ∀ c : Int, hi + 1 ≤ c → c ≤ Row.round_ties_down_frac e' d →
        w + 1 ≤ c ∧ R * R < d * d + c * c := by
      intro c h1 h2
      have hndisk : R * R < d * d + c * c := by
        by_contra hcon
        push_neg at hcon
        obtain ⟨hw1, hw2⟩ := (hdiskc c).mp hcon
        have hMd : c ≤ Row.round_ties_down_frac e d := (hround_agree c hw1 hw2).2.mpr h2
        have := hhi_lb c hMd hw2
        omega
      refine ⟨?_, hndisk⟩
      have hnin : ¬(-w ≤ c ∧ c ≤ w) := fun hcc => by
        have := (hdiskc c).mpr hcc
        omega
      omega
    have hMn_d : Row.round_ties_down_frac e' d ≤ d := round_ties_down_le he1' he2' hd
    -- tile splits into prefix, boundary column, middle and suffix
    have hsplitD : rangeInts (Row.round_ties_up_frac s d) (Row.round_ties_down_frac e d) =
        rangeInts (Row.round_ties_up_frac s d) (lo - 1) ++
          ([lo] ++ (rangeInts (lo + 1) hi ++
            rangeInts (hi + 1) (Row.round_ties_down_frac e d))) := by
      have h1 := rangeInts_eq_append (a := Row.round_ties_up_frac s d) (k := lo)
        (b := Row.round_ties_down_frac e d) (by omega) (by omega)
      have h2 := rangeInts_eq_cons (a := lo) (b := Row.round_ties_down_frac e d) (by omega)
      have h3 := rangeInts_eq_append (a := lo + 1) (k := hi + 1)
        (b := Row.round_ties_down_frac e d) (by omega) (by omega)
      rw [show hi + 1 - 1 = hi from by omega] at h3
      rw [h1, h2, h3]
      rfl
    have hsplitN : rangeInts (Row.round_ties_up_frac s' d) (Row.round_ties_down_frac e' d) =
        rangeInts (Row.round_ties_up_frac s' d) (lo - 1) ++
          ([lo] ++ (rangeInts (lo + 1) hi ++
            rangeInts (hi + 1) (Row.round_ties_down_frac e' d))) := by
      have h1 := rangeInts_eq_append (a := Row.round_ties_up_frac s' d) (k := lo)
        (b := Row.round_ties_down_frac e' d) (by omega) (by omega)
      have h2 := rangeInts_eq_cons (a := lo) (b := Row.round_ties_down_frac e' d) (by omega)
      have h3 := rangeInts_eq_append (a := lo + 1) (k := hi + 1)
        (b := Row.round_ties_down_frac e' d) (by omega) (by omega)
      rw [show hi + 1 - 1 = hi from by omega] at h3
      rw [h1, h2, h3]
      rfl
    have hfrpreD : ∀ c ∈ rangeInts (Row.round_ties_up_frac s d) (lo - 1),
        R * R < d * d + c * c := by
      intro c hc
      rw [mem_rangeInts] at hc
      exact hpreD_fr c hc.1 hc.2
    have hfrsufD : ∀ c ∈ rangeInts (hi + 1) (Row.round_ties_down_frac e d),
        R * R < d * d + c * c := by
      intro c hc
      rw [mem_rangeInts] at hc
      exact hsufD_fr c hc.1 hc.2
    have hfrpreN : ∀ c ∈ rangeInts (Row.round_ties_up_frac s' d) (lo - 1),
        c ≤ -1 ∧ R * R < d * d + c * c := by
      intro c hc
      rw [mem_rangeInts] at hc
      obtain ⟨h1, h2⟩ := hpreN_fr c hc.1 hc.2
      exact ⟨by omega, h2⟩
    have hfrsufN : ∀ c ∈ rangeInts (hi + 1) (Row.round_ties_down_frac e' d),
        1 ≤ c ∧ c ≤ d ∧ R * R < d * d + c * c ∧
          (2 * c - 1) * e'.denominator < e'.numerator * (2 * d) := by
      intro c hc
      rw [mem_rangeInts] at hc
      obtain ⟨h1, h2⟩ := hsufN_fr c hc.1 hc.2
      refine ⟨by omega, by omega, h2, ?_⟩
      exact (le_round_down_iff he1' (by omega)).mp hc.2
    -- named sweep segments
    set NP := scanColsND is_blocking origin q d e'
      (rangeInts (Row.round_ties_up_frac s' d) (lo - 1)) s' none with hNP
    set DB := scanCols is_blocking origin q (R * R) d e [lo] s none with hDB
    set NB := scanColsND is_blocking origin q d e' [lo] NP.start_slope NP.prev with hNB
    -- the left fringe keeps the ND start slope related to `s`
    have hleft : 0 < NP.start_slope.denominator ∧ EqS R d s NP.start_slope :=
      scanColsND_left is_blocking origin q R d e' hd s
        (rangeInts (Row.round_ties_up_frac s' d) (lo - 1)) s' none hs1' hS hfrpreN
        (rangeInts_pairwise _ _) (Or.inl rfl)
        (by
          intro c2 hc2 hex
          obtain ⟨c1, hc1, hlt12⟩ := hex
          rw [mem_rangeInts] at hc2 hc1
          have h1 : Row.round_ties_up_frac s' d ≤ c2 - 1 := by omega
          have h2 := (round_up_le_iff hs1' (by omega)).mp h1
          linarith)
    -- the boundary column facts
    have hguard : NP.prev = none ∨ (lo ≤ 0 ∧ R * R < d * d + (lo - 1) * (lo - 1) ∧
        NP.start_slope.numerator * (2 * d) < (2 * lo - 1) * NP.start_slope.denominator) := by
      by_cases hpre : Row.round_ties_up_frac s' d ≤ lo - 1
      · right
        obtain ⟨hwlo, hfrlo⟩ := hpreN_fr (lo - 1) hpre le_rfl
        refine ⟨by omega, hfrlo, ?_⟩
        obtain ⟨hstart, _⟩ := @scanColsND_shape is_blocking origin q d e'
          (rangeInts (Row.round_ties_up_frac s' d) (lo - 1)) s' none
        rw [← hNP] at hstart
        rcases hstart with heq | ⟨cs, hcs, heq⟩
        · rw [heq]
          have h2 := (round_up_le_iff hs1' (by omega)).mp hpre
          linarith
        · rw [mem_rangeInts] at hcs
          rw [heq]
          simp only [Row.slope, Fraction.new]
          nlinarith [hcs.2, hd]
      · left
        have hnil : rangeInts (Row.round_ties_up_frac s' d) (lo - 1) = [] :=
          rangeInts_nil (by omega)
        rw [hNP, hnil]
        rfl
    have hbnd : DB.marks = NB.marks ∧ DB.prev = NB.prev ∧
        DB.prev = some (is_blocking (Quadrant.transform q origin d lo)) ∧
        DB.start_slope = s ∧ 0 < NB.start_slope.denominator ∧
        EqS R d s NB.start_slope ∧ DB.children = [] ∧
        ∀ r ∈ NB.children, RowFringe R r :=
      scanCols_boundary is_blocking origin q R d e e' hd he1 he1' hE lo s
        NP.start_slope NP.prev hs1 hleft.1 hleft.2
        ((hdiskc lo).mpr ⟨by omega, by omega⟩) hguard
    set DM := scanCols is_blocking origin q (R * R) d e (rangeInts (lo + 1) hi)
      DB.start_slope NB.prev with hDM
    set NM := scanColsND is_blocking origin q d e' (rangeInts (lo + 1) hi)
      NB.start_slope NB.prev with hNM
    have hsync : DM.marks = NM.marks ∧ DM.prev = NM.prev ∧
        0 < DM.start_slope.denominator ∧ 0 < NM.start_slope.denominator ∧
        EqS R d DM.start_slope NM.start_slope ∧
        List.Forall₂ (ChildPair R d) DM.children NM.children := by
      have h := scanCols_sync is_blocking origin q R d e e' hd he1 he1' hE
        (rangeInts (lo + 1) hi) DB.start_slope NB.start_slope NB.prev
        (by rw [hbnd.2.2.2.1]; exact hs1) hbnd.2.2.2.2.1
        (by rw [hbnd.2.2.2.1]; exact hbnd.2.2.2.2.2.1)
        (by
          intro c hc
          rw [mem_rangeInts] at hc
          exact (hdiskc c).mpr ⟨by omega, by omega⟩)
      exact h
    set NS := scanColsND is_blocking origin q d e'
      (rangeInts (hi + 1) (Row.round_ties_down_frac e' d)) NM.start_slope NM.prev with hNS
    -- the combined sweep outputs
    have houtD : scanCols is_blocking origin q (R * R) d e
        (rangeInts (Row.round_ties_up_frac s d) (Row.round_ties_down_frac e d)) s none =
        ⟨DB.marks ++ DM.marks, DB.children ++ DM.children,
          DM.start_slope, DM.prev⟩ := by
      rw [hsplitD, scanCols_skip_prefix _ _ _ _ _ _ _ _ _ _ hfrpreD, scanCols_append,
        scanCols_skip_suf _ _ _ _ _ _ _ _ _ _ hfrsufD, ← hDB, hbnd.2.1, ← hDM]
    have houtN : scanColsND is_blocking origin q d e'
        (rangeInts (Row.round_ties_up_frac s' d) (Row.round_ties_down_frac e' d)) s' none =
        ⟨NP.marks ++ (NB.marks ++ (NM.marks ++ NS.marks)),
          NP.children ++ (NB.children ++ (NM.children ++ NS.children)),
          NS.start_slope, NS.prev⟩ := by
      rw [hsplitN, scanColsND_append, ← hNP, scanColsND_append, ← hNB, scanColsND_append,
        ← hNM, ← hNS]
    -- the middle exit `prev` is a `some`
    have hNBprev : NB.prev = some (is_blocking (Quadrant.transform q origin d lo)) := by
      rw [← hbnd.2.1]
      exact hbnd.2.2.1
    obtain ⟨bb, hbb⟩ : ∃ bb : Bool, NM.prev = some bb := by
      rw [hNM, hNBprev]
      exact scanColsND_prev_propagate _ _ _
    have hDMprev : DM.prev = some bb := by rw [hsync.2.1, hbb]
    -- suffix relation between the trailing children
    have hsufrel : CRel R
        (if DM.prev = some false then [Row.new (d + 1) DM.start_slope e] else [])
        (NS.children ++
          (if NS.prev = some false then [Row.new (d + 1) NS.start_slope e'] else [])) := by
      cases hbbval : bb
      · -- floor exit: the ND continuation child pairs with the distance trailing child
        have hNMfalse : NM.prev = some false := by rw [hbb, hbbval]
        have hDMfalse : DM.prev = some false := by rw [hDMprev, hbbval]
        rw [if_pos hDMfalse, hNS, hNMfalse]
        exact scanColsND_cont is_blocking origin q R d e e' hd he1 he1' hE
          DM.start_slope (rangeInts (hi + 1) (Row.round_ties_down_frac e' d))
          NM.start_slope hsync.2.2.2.1 hsync.2.2.2.2.1 hfrsufN
      · -- wall exit: everything the ND side does on the right fringe is junk
        have hNMtrue : NM.prev = some true := by rw [hbb, hbbval]
        have hDMtrue : DM.prev = some true := by rw [hDMprev, hbbval]
        rw [if_neg (by rw [hDMtrue]; simp)]
        have hjunk := scanColsND_junk is_blocking origin q R d e' hd
          (rangeInts (hi + 1) (Row.round_ties_down_frac e' d)) NM.start_slope true
          (fun c hc => ⟨(hfrsufN c hc).1, (hfrsufN c hc).2.1, (hfrsufN c hc).2.2.1⟩)
          (fun h => absurd h (by simp))
        refine CRel_nil_of_fringe ?_
        intro r hr
        rcases List.mem_append.mp hr with hr | hr
        · have : r ∈ (scanColsND is_blocking origin q d e'
              (rangeInts (hi + 1) (Row.round_ties_down_frac e' d)) NM.start_slope
              (some true)).children := by
            rw [← hNMtrue, ← hNS]
            exact hr
          exact hjunk.1 r this
        · split at hr
          · rename_i hprev
            rcases List.mem_singleton.mp hr with rfl
            have hsafe : StartSafe R d NS.start_slope := by
              have : NS.prev = (scanColsND is_blocking origin q d e'
                  (rangeInts (hi + 1) (Row.round_ties_down_frac e' d)) NM.start_slope
                  (some true)).prev := by
                rw [← hNMtrue, ← hNS]
              have hstart : NS.start_slope = (scanColsND is_blocking origin q d e'
                  (rangeInts (hi + 1) (Row.round_ties_down_frac e' d)) NM.start_slope
                  (some true)).start_slope := by
                rw [← hNMtrue, ← hNS]
              rw [hstart]
              exact hjunk.2 (by rw [← this]; exact hprev)
            intro c₁ hc₁
            simp only [Row.new, Row.tiles, mem_rangeInts] at hc₁
            exact hsafe c₁ hc₁.1
          · simp at hr
    -- marks of the outer ND segments are out of the circle
    have hNPmark : ∀ p : Point, p ∈ NP.marks →
        R * R < (p.x - origin.x) * (p.x - origin.x) +
          (p.y - origin.y) * (p.y - origin.y) := by
      intro p hp
      obtain ⟨c, hc, rfl⟩ := scanColsND_marks_shape _ _ _ p hp
      rw [transform_dist]
      exact (hfrpreN c hc).2
    have hNSmark : ∀ p : Point, p ∈ NS.marks →
        R * R < (p.x - origin.x) * (p.x - origin.x) +
          (p.y - origin.y) * (p.y - origin.y) := by
      intro p hp
      obtain ⟨c, hc, rfl⟩ := scanColsND_marks_shape _ _ _ p hp
      rw [transform_dist]
      exact (hfrsufN c hc).2.2.1
    refine ⟨?_, ?_⟩
    · -- marks
      intro p hp
      show p ∈ (scanCols is_blocking origin q (R * R) d e
          (rangeInts (Row.round_ties_up_frac s d) (Row.round_ties_down_frac e d)) s
          none).marks ↔
        p ∈ (scanColsND is_blocking origin q d e'
          (rangeInts (Row.round_ties_up_frac s' d) (Row.round_ties_down_frac e' d)) s'
          none).marks
      rw [houtD, houtN]
      show p ∈ DB.marks ++ DM.marks ↔
        p ∈ NP.marks ++ (NB.marks ++ (NM.marks ++ NS.marks))
      simp only [List.mem_append]
      constructor
      · rintro (h | h)
        · exact Or.inr (Or.inl (by rw [← hbnd.1]; exact h))
        · exact Or.inr (Or.inr (Or.inl (by rw [← hsync.1]; exact h)))
      · rintro (h | h | h | h)
        · exact absurd hp (by have := hNPmark p h; omega)
        · exact Or.inl (by rw [hbnd.1]; exact h)
        · exact Or.inr (by rw [hsync.1]; exact h)
        · exact absurd hp (by have := hNSmark p h; omega)
    · -- children
      show CRel R
        ((scanCols is_blocking origin q (R * R) d e
            (rangeInts (Row.round_ties_up_frac s d) (Row.round_ties_down_frac e d)) s
            none).children ++
          (if (scanCols is_blocking origin q (R * R) d e
                (rangeInts (Row.round_ties_up_frac s d) (Row.round_ties_down_frac e d)) s
                none).prev = some false
            then [Row.new (d + 1)
                (scanCols is_blocking origin q (R * R) d e
                  (rangeInts (Row.round_ties_up_frac s d) (Row.round_ties_down_frac e d)) s
                  none).start_slope e]
            else []))
        ((scanColsND is_blocking origin q d e'
            (rangeInts (Row.round_ties_up_frac s' d) (Row.round_ties_down_frac e' d)) s'
            none).children ++
          (if (scanColsND is_blocking origin q d e'
                (rangeInts (Row.round_ties_up_frac s' d) (Row.round_ties_down_frac e' d)) s'
                none).prev = some false
            then [Row.new (d + 1)
                (scanColsND is_blocking origin q d e'
                  (rangeInts (Row.round_ties_up_frac s' d) (Row.round_ties_down_frac e' d))
                  s' none).start_slope e']
            else []))
      rw [houtD, houtN]
      show CRel R
        ((DB.children ++ DM.children) ++
          (if DM.prev = some false then [Row.new (d + 1) DM.start_slope e] else []))
        ((NP.children ++ (NB.children ++ (NM.children ++ NS.children))) ++
          (if NS.prev = some false then [Row.new (d + 1) NS.start_slope e'] else []))
      rw [hbnd.2.2.2.2.2.2.1, List.nil_append]
      have hshape : (NP.children ++ (NB.children ++ (NM.children ++ NS.children))) ++
          (if NS.prev = some false then [Row.new (d + 1) NS.start_slope e'] else []) =
          NP.children ++ (NB.children ++ (NM.children ++ (NS.children ++
            (if NS.prev = some false then [Row.new (d + 1) NS.start_slope e'] else [])))) := by
        simp [List.append_assoc]
      rw [hshape]
      refine CRel_junk_append ?_ (CRel_junk_append hbnd.2.2.2.2.2.2.2 ?_)
      · exact left_children_fringe is_blocking origin q R d e' hd _ s' none hfrpreN
      · exact CRel_pairs_append hsync.2.2.2.2.2 hsufrel


/-- Tree-level equivalence: over `EqS`/`EqE`-related row states, the
distance-checked row tree marks exactly the in-circle coordinates marked by
the ND row tree. -/
theorem scanRows_eq_ND (is_blocking : Point → Bool) (origin : Point) (q : Cardinal)
    (R : Int) :
    ∀ (gas gasN : Nat) (row rowN : Row),
      RowInv row → RowInv rowN → rowN.depth = row.depth →
      EqS R row.depth row.start_slope rowN.start_slope →
      EqE R row.depth rowN.end_slope row.end_slope →
      R < row.depth + gas → R < rowN.depth + gasN →
      ∀ p : Point,
        (p.x - origin.x) * (p.x - origin.x) + (p.y - origin.y) * (p.y - origin.y) ≤ R * R →
        (p ∈ scanRows is_blocking origin q R (R * R) gas row ↔
          p ∈ scanRowsND is_blocking origin q R gasN rowN) := by
  intro gas
  induction gas with
  | zero =>
    intro gasN row rowN hinv hinvN hdep hS hE hg hgN p hp
    constructor
    · intro h
      simp [scanRows] at h
    · intro h
      exfalso
      rcases gasN with _ | gasN
      · simp [scanRowsND] at h
      · simp only [scanRowsND] at h
        split at h
        · simp at h
        · rename_i hcond
          omega
  | succ gas ih =>
    intro gasN row rowN hinv hinvN hdep hS hE hg hgN p hp
    rcases gasN with _ | gasN
    · constructor
      · intro h
        exfalso
        simp only [scanRows] at h
        split at h
        · simp at h
        · rename_i hcond
          omega
      · intro h
        simp [scanRowsND] at h
    · by_cases hdeep : R < row.depth
      · constructor
        · intro h
          exfalso
          simp only [scanRows] at h
          split at h
          · simp at h
          · rename_i hcond
            omega
        · intro h
          exfalso
          simp only [scanRowsND] at h
          split at h
          · simp at h
          · rename_i hcond
            omega
      · push_neg at hdeep
        rcases row with ⟨dr, sr, er⟩
        rcases rowN with ⟨dn, sn2, en2⟩
        have hdd : dr = dn := Eq.symm hdep
        subst hdd
        have hdr1 : 1 ≤ dr := hinv.1
        have hsd : 0 < sr.denominator := hinv.2.1
        have hed : 0 < er.denominator := hinv.2.2.1
        have hsn : -sr.denominator ≤ sr.numerator := hinv.2.2.2.1
        have hen : er.numerator ≤ er.denominator := hinv.2.2.2.2
        have hsd' : 0 < sn2.denominator := hinvN.2.1
        have hed' : 0 < en2.denominator := hinvN.2.2.1
        have hsn' : -sn2.denominator ≤ sn2.numerator := hinvN.2.2.2.1
        have hen' : en2.numerator ≤ en2.denominator := hinvN.2.2.2.2
        have hdrR : dr ≤ R := hdeep
        have hg' : R < dr + (gas + 1 : Nat) := hg
        have hgN' : R < dr + (gasN + 1 : Nat) := hgN
        have hS' : EqS R dr sr sn2 := hS
        have hE' : EqE R dr en2 er := hE
        have hrel := processRow_rel is_blocking origin q R dr sr er sn2 en2 hdr1 hdrR
          hsd hed hsd' hed' hsn hen hsn' hen' hS' hE'
        have hcd : ∀ r ∈ (processRow is_blocking origin q (R * R) (Row.mk dr sr er)).2,
            RowInv r ∧ r.depth = dr + 1 := fun r hr =>
          processRow_children_inv is_blocking origin q (R * R) (Row.mk dr sr er) hinv r hr
        have hcn : ∀ r ∈ (processRowND is_blocking origin q (Row.mk dr sn2 en2)).2,
            RowInv r ∧ r.depth = dr + 1 := fun r hr =>
          processRowND_children_inv is_blocking origin q (Row.mk dr sn2 en2) hinvN r hr
        have hchild : ∀ (cd cn : List Row), CRel R cd cn →
            (∀ r ∈ cd, RowInv r ∧ r.depth = dr + 1) →
            (∀ r ∈ cn, RowInv r ∧ r.depth = dr + 1) →
            (p ∈ (cd.map (scanRows is_blocking origin q R (R * R) gas)).flatten ↔
              p ∈ (cn.map (scanRowsND is_blocking origin q R gasN)).flatten) := by
          intro cd cn hcrel
          induction hcrel with
          | nil =>
            intro _ _
            simp
          | junk hfr hrest ihc =>
            rename_i rowJ cd2 cn2
            intro h2cd h2cn
            have hjempty : p ∉ scanRowsND is_blocking origin q R gasN rowJ := by
              intro hmem
              have := fringe_subtree is_blocking origin q R gasN rowJ
                (h2cn rowJ (List.mem_cons_self _ _)).1 hfr p hmem
              omega
            simp only [List.map_cons, List.flatten_cons, List.mem_append]
            constructor
            · intro h
              exact Or.inr ((ihc h2cd
                (fun r hr => h2cn r (List.mem_cons_of_mem _ hr))).mp h)
            · rintro (h | h)
              · exact absurd h hjempty
              · exact (ihc h2cd (fun r hr => h2cn r (List.mem_cons_of_mem _ hr))).mpr h
          | pair hdep2 hS2 hE2 hrest ihc =>
            rename_i r r' cd2 cn2
            intro h2cd h2cn
            simp only [List.map_cons, List.flatten_cons, List.mem_append]
            have hhead : p ∈ scanRows is_blocking origin q R (R * R) gas r ↔
                p ∈ scanRowsND is_blocking origin q R gasN r' := by
              have hrinv := h2cd r (List.mem_cons_self _ _)
              have hrinv' := h2cn r' (List.mem_cons_self _ _)
              exact ih gasN r r' hrinv.1 hrinv'.1 (by omega)
                (by rw [hrinv.2]; rw [hrinv.2] at hS2; exact hS2)
                (by rw [hrinv.2]; rw [hrinv.2] at hE2; exact hE2)
                (by omega) (by omega) p hp
            exact or_congr hhead
              (ihc (fun x hx => h2cd x (List.mem_cons_of_mem _ hx))
                (fun x hx => h2cn x (List.mem_cons_of_mem _ hx)))
        simp only [scanRows, scanRowsND]
        rw [if_neg (show ¬((Row.mk dr sr er).depth > R) from by
            show ¬(dr > R); omega),
          if_neg (show ¬((Row.mk dr sn2 en2).depth > R) from by
            show ¬(dr > R); omega)]
        simp only [List.mem_append]
        exact or_congr (hrel.1 p hp) (hchild _ _ hrel.2 hcd hcn)


/-! ### The ND scan on an all-transparent map -/

/-- On an all-transparent map the ND sweep marks exactly the symmetric
columns, never pushes, and never mutates the start slope. -/
theorem scanColsND_false (origin : Point) (q : Cardinal) (d : Int) (e : Fraction) :
    ∀ (cols : List Int) (s : Fraction) (prev : Option Bool),
      prev = none ∨ prev = some false →
      scanColsND (fun _ => false) origin q d e cols s prev =
        ⟨(cols.filter (fun c => Row.is_symmetric ⟨d, s, e⟩ c)).map
            (Quadrant.transform q origin d), [], s,
          if cols.isEmpty then prev else some false⟩ := by
  intro cols
  induction cols with
  | nil =>
    intro s prev _
    simp [scanColsND]
  | cons col cols ih =>
    intro s prev hprev
    have hih := ih s (some false) (Or.inr rfl)
    rcases hprev with rfl | rfl <;>
      simp only [scanColsND, Bool.false_eq_true, Bool.not_false, Bool.and_false,
        Bool.false_and, Bool.true_and, Bool.and_true, if_false, List.nil_append, hih,
        List.filter_cons, List.isEmpty_cons, Bool.false_or] <;>
      by_cases hsymcol : Row.is_symmetric ⟨d, s, e⟩ col = true <;>
      simp [hsymcol]

/-- Processing the full wedge row `[-1/1, 1/1]` on an all-transparent map
marks the whole column range `[-d, d]` and pushes the next full wedge. -/
theorem processRowND_false_wedge (origin : Point) (q : Cardinal) (d : Int) (hd : 1 ≤ d) :
    processRowND (fun _ => false) origin q ⟨d, Fraction.new (-1) 1, Fraction.new 1 1⟩ =
      ((rangeInts (-d) d).map (Quadrant.transform q origin d),
        [Row.new (d + 1) (Fraction.new (-1) 1) (Fraction.new 1 1)]) := by
  have hden1 : (0:Int) < (Fraction.new (-1) 1).denominator := by
    simp [Fraction.new]
  have hden2 : (0:Int) < (Fraction.new 1 1).denominator := by
    simp [Fraction.new]
  have hup : Row.round_ties_up_frac (Fraction.new (-1) 1) d = -d := by
    have h1 : Row.round_ties_up_frac (Fraction.new (-1) 1) d ≤ -d := by
      rw [round_up_le_iff hden1 (by omega)]
      simp only [Fraction.new]
      omega
    have h2 : ¬(Row.round_ties_up_frac (Fraction.new (-1) 1) d ≤ -d - 1) := by
      rw [round_up_le_iff hden1 (by omega)]
      simp only [Fraction.new]
      omega
    omega
  have hdown : Row.round_ties_down_frac (Fraction.new 1 1) d = d := by
    have h1 : d ≤ Row.round_ties_down_frac (Fraction.new 1 1) d := by
      rw [le_round_down_iff hden2 (by omega)]
      simp only [Fraction.new]
      omega
    have h2 : ¬(d + 1 ≤ Row.round_ties_down_frac (Fraction.new 1 1) d) := by
      rw [le_round_down_iff hden2 (by omega)]
      simp only [Fraction.new]
      omega
    omega
  have htiles : (Row.mk d (Fraction.new (-1) 1) (Fraction.new 1 1)).tiles =
      rangeInts (-d) d := by
    show rangeInts (Row.round_ties_up_frac (Fraction.new (-1) 1) d)
      (Row.round_ties_down_frac (Fraction.new 1 1) d) = rangeInts (-d) d
    rw [hup, hdown]
  have hsym_all : ∀ c ∈ rangeInts (-d) d,
      Row.is_symmetric ⟨d, Fraction.new (-1) 1, Fraction.new 1 1⟩ c = true := by
    intro c hc
    rw [mem_rangeInts] at hc
    simp only [Row.is_symmetric, Bool.and_eq_true]
    constructor
    · rw [greater_equal_iff]
      simp only [Fraction.new]
      omega
    · rw [less_equal_iff]
      simp only [Fraction.new]
      omega
  have hnonempty : ¬((rangeInts (-d) d).isEmpty = true) := by
    have : (-d : Int) ∈ rangeInts (-d) d := mem_rangeInts.mpr ⟨le_rfl, by omega⟩
    intro hcon
    rw [List.isEmpty_iff] at hcon
    rw [hcon] at this
    simp at this
  have hsweep := scanColsND_false origin q d (Fraction.new 1 1) (rangeInts (-d) d)
    (Fraction.new (-1) 1) none (Or.inl rfl)
  show ((scanColsND (fun _ => false) origin q d (Fraction.new 1 1)
      (Row.mk d (Fraction.new (-1) 1) (Fraction.new 1 1)).tiles (Fraction.new (-1) 1)
      none).marks,
    (scanColsND (fun _ => false) origin q d (Fraction.new 1 1)
        (Row.mk d (Fraction.new (-1) 1) (Fraction.new 1 1)).tiles (Fraction.new (-1) 1)
        none).children ++
      (if (scanColsND (fun _ => false) origin q d (Fraction.new 1 1)
            (Row.mk d (Fraction.new (-1) 1) (Fraction.new 1 1)).tiles (Fraction.new (-1) 1)
            none).prev = some false
        then [Row.new (d + 1)
            (scanColsND (fun _ => false) origin q d (Fraction.new 1 1)
              (Row.mk d (Fraction.new (-1) 1) (Fraction.new 1 1)).tiles
              (Fraction.new (-1) 1) none).start_slope (Fraction.new 1 1)]
        else [])) =
    ((rangeInts (-d) d).map (Quadrant.transform q origin d),
      [Row.new (d + 1) (Fraction.new (-1) 1) (Fraction.new 1 1)])
  rw [htiles, hsweep]
  rw [List.filter_eq_self.mpr hsym_all]
  rw [if_neg hnonempty]
  simp

/-- On an all-transparent map, the ND wedge tree starting at depth `d`
marks every tile `(d₀, c₀)` with `d ≤ d₀ ≤ R`, `|c₀| ≤ d₀`. -/
theorem scanRowsND_false_mem (origin : Point) (q : Cardinal) (R d₀ c₀ : Int)
    (h1 : 1 ≤ d₀) (h2 : d₀ ≤ R) (h3 : -d₀ ≤ c₀) (h4 : c₀ ≤ d₀) :
    ∀ (gas : Nat) (d : Int), 1 ≤ d → d ≤ d₀ → R < d + gas →
      Quadrant.transform q origin d₀ c₀ ∈ scanRowsND (fun _ => false) origin q R gas
        ⟨d, Fraction.new (-1) 1, Fraction.new 1 1⟩ := by
  intro gas
  induction gas with
  | zero =>
    intro d hd hdd hg
    exact absurd hg (by omega)
  | succ gas ih =>
    intro d hd hdd hg
    simp only [scanRowsND]
    rw [if_neg (show ¬((Row.mk d (Fraction.new (-1) 1) (Fraction.new 1 1)).depth > R) from by
      show ¬(d > R); omega)]
    rw [processRowND_false_wedge origin q d hd]
    simp only [List.mem_append, List.map_cons, List.map_nil, List.flatten_cons,
      List.flatten_nil, List.append_nil]
    rcases eq_or_lt_of_le hdd with heq | hlt
    · subst heq
      left
      exact List.mem_map.mpr ⟨c₀, mem_rangeInts.mpr ⟨h3, h4⟩, rfl⟩
    · right
      exact ih (d + 1) (by omega) (by omega) (by omega)

/-- Membership characterization of `compute_fov` on an all-transparent map:
exactly the circle of squared radius `r²`. -/
theorem mem_compute_fov_transparent (origin : Point) (r : Int) (hr : 0 ≤ r) (p : Point) :
    p ∈ compute_fov origin r (fun _ => false) ↔
      (p.x - origin.x) * (p.x - origin.x) + (p.y - origin.y) * (p.y - origin.y) ≤ r * r := by
  have hroot : RowInv (Row.new 1 (Fraction.new (-1) 1) (Fraction.new 1 1)) := by
    refine ⟨?_, ?_, ?_, ?_, ?_⟩ <;> simp [Row.new, Fraction.new]
  constructor
  · intro hp
    rcases List.mem_cons.mp hp with rfl | hp2
    · nlinarith
    · simp only [List.mem_flatten, List.mem_map] at hp2
      obtain ⟨l, ⟨q, hq, rfl⟩, hmem⟩ := hp2
      exact scanRows_marks_dist _ _ p hmem
  · intro hp
    by_cases hzero : p.x - origin.x = 0 ∧ p.y - origin.y = 0
    · have hporig : p = origin := by
        rcases p with ⟨px, py⟩
        rcases origin with ⟨ox, oy⟩
        simp only at hzero
        simp only [Point.mk.injEq]
        omega
      rw [hporig]
      show origin ∈ origin :: _
      exact List.mem_cons_self _ _
    · -- pick a quadrant containing the offset
      obtain ⟨q, d₀, c₀, hq, hd₀1, hc₀l, hc₀r, hptransform, hd₀sq⟩ :
          ∃ (q : Cardinal) (d₀ c₀ : Int),
            q ∈ [Cardinal.north, Cardinal.south, Cardinal.east, Cardinal.west] ∧
            1 ≤ d₀ ∧ -d₀ ≤ c₀ ∧ c₀ ≤ d₀ ∧
            p = Quadrant.transform q origin d₀ c₀ ∧
            d₀ * d₀ ≤ (p.x - origin.x) * (p.x - origin.x) +
              (p.y - origin.y) * (p.y - origin.y) := by
        rcases p with ⟨px, py⟩
        rcases origin with ⟨ox, oy⟩
        have hp2 : (px - ox) * (px - ox) + (py - oy) * (py - oy) ≤ r * r := hp
        have hz2 : ¬(px - ox = 0 ∧ py - oy = 0) := hzero
        by_cases hN : py - oy ≤ -1 ∧ py - oy ≤ px - ox ∧ px - ox ≤ -(py - oy)
        · refine ⟨Cardinal.north, -(py - oy), px - ox, by simp, by omega, by omega, by omega,
            ?_, ?_⟩
          · simp only [Quadrant.transform, Point.new, Point.mk.injEq]
            constructor <;> omega
          · show (-(py - oy)) * (-(py - oy)) ≤
              ((⟨px, py⟩ : Point).x - (⟨ox, oy⟩ : Point).x) *
                  ((⟨px, py⟩ : Point).x - (⟨ox, oy⟩ : Point).x) +
                ((⟨px, py⟩ : Point).y - (⟨ox, oy⟩ : Point).y) *
                  ((⟨px, py⟩ : Point).y - (⟨ox, oy⟩ : Point).y)
            show (-(py - oy)) * (-(py - oy)) ≤
              (px - ox) * (px - ox) + (py - oy) * (py - oy)
            nlinarith [mul_self_nonneg (px - ox)]
        · by_cases hS : 1 ≤ py - oy ∧ -(py - oy) ≤ px - ox ∧ px - ox ≤ py - oy
          · refine ⟨Cardinal.south, py - oy, px - ox, by simp, by omega, by omega, by omega,
              ?_, ?_⟩
            · simp only [Quadrant.transform, Point.new, Point.mk.injEq]
              constructor <;> omega
            · show (py - oy) * (py - oy) ≤
                (px - ox) * (px - ox) + (py - oy) * (py - oy)
              nlinarith [mul_self_nonneg (px - ox)]
          · by_cases hEa : 1 ≤ px - ox ∧ -(px - ox) ≤ py - oy ∧ py - oy ≤ px - ox
            · refine ⟨Cardinal.east, px - ox, py - oy, by simp, by omega, by omega, by omega,
                ?_, ?_⟩
              · simp only [Quadrant.transform, Point.new, Point.mk.injEq]
                constructor <;> omega
              · show (px - ox) * (px - ox) ≤
                  (px - ox) * (px - ox) + (py - oy) * (py - oy)
                nlinarith [mul_self_nonneg (py - oy)]
            · refine ⟨Cardinal.west, -(px - ox), py - oy, by simp, by omega, by omega,
                by omega, ?_, ?_⟩
              · simp only [Quadrant.transform, Point.new, Point.mk.injEq]
                constructor <;> omega
              · show (-(px - ox)) * (-(px - ox)) ≤
                  (px - ox) * (px - ox) + (py - oy) * (py - oy)
                nlinarith [mul_self_nonneg (py - oy)]
      have hd₀R : d₀ ≤ r := by
        by_contra hcon
        push_neg at hcon
        have h1 : r + 1 ≤ d₀ := hcon
        nlinarith [mul_le_mul h1 h1 (by omega : (0:Int) ≤ r + 1) (by omega : (0:Int) ≤ d₀)]
      have hnd : Quadrant.transform q origin d₀ c₀ ∈
          scanRowsND (fun _ => false) origin q r (r.toNat + 1)
            ⟨1, Fraction.new (-1) 1, Fraction.new 1 1⟩ :=
        scanRowsND_false_mem origin q r d₀ c₀ hd₀1 hd₀R hc₀l hc₀r (r.toNat + 1) 1
          le_rfl hd₀1 (by omega)
      have hdist : ((Quadrant.transform q origin d₀ c₀).x - origin.x) *
            ((Quadrant.transform q origin d₀ c₀).x - origin.x) +
          ((Quadrant.transform q origin d₀ c₀).y - origin.y) *
            ((Quadrant.transform q origin d₀ c₀).y - origin.y) ≤ r * r := by
        rw [← hptransform]
        exact hp
      have hback : Quadrant.transform q origin d₀ c₀ ∈
          scanRows (fun _ => false) origin q r (r * r) (r.toNat + 1)
            (Row.new 1 (Fraction.new (-1) 1) (Fraction.new 1 1)) :=
        (scanRows_eq_ND (fun _ => false) origin q r (r.toNat + 1) (r.toNat + 1)
          (Row.new 1 (Fraction.new (-1) 1) (Fraction.new 1 1))
          (Row.new 1 (Fraction.new (-1) 1) (Fraction.new 1 1)) hroot hroot rfl
          (EqS_refl _ _ _) (EqE_refl _ _ _)
          (show r < (1:Int) + ((r.toNat + 1 : Nat) : Int) by omega)
          (show r < (1:Int) + ((r.toNat + 1 : Nat) : Int) by omega)
          (Quadrant.transform q origin d₀ c₀) hdist).mpr hnd
      rw [hptransform]
      unfold compute_fov
      refine List.mem_cons.mpr (Or.inr ?_)
      simp only [List.mem_flatten, List.mem_map]
      exact ⟨_, ⟨q, hq, rfl⟩, hback⟩

/-- The final `prev` of a nonempty ND sweep is always `some`. -/
theorem scanColsND_prev_some {is_blocking : Point → Bool} {origin : Point} {q : Cardinal}
    {d : Int} {e : Fraction} :
    ∀ (cols : List Int) (s : Fraction) (prev : Option Bool),
      cols ≠ [] → ∃ bb : Bool, (scanColsND is_blocking origin q d e cols s prev).prev = some bb := by
  intro cols
  induction cols with
  | nil => intro s prev h; exact absurd rfl h
  | cons col cols ih =>
    intro s prev _
    rcases Classical.em (cols = []) with hc | hc
    · subst hc
      exact ⟨is_blocking (Quadrant.transform q origin d col), rfl⟩
    · exact ih _ _ hc

/-! ### C4: monotonicity of the visible set in the radius -/

/-- C4: for every origin, every opacity predicate and every `r ≥ 0`, every
coordinate marked by `compute_fov` with `max_radius = r` is also marked with
`max_radius = r + 1`: the distance-checked scan equals the in-circle part of
a distance-free scan, which is monotone in the depth cutoff. -/
theorem compute_fov_radius_mono (origin : Point) (r : Int) (is_blocking : Point → Bool)
    (hr : 0 ≤ r) (p : Point) (hp : p ∈ compute_fov origin r is_blocking) :
    p ∈ compute_fov origin (r + 1) is_blocking := by
  have hroot : RowInv (Row.new 1 (Fraction.new (-1) 1) (Fraction.new 1 1)) := by
    refine ⟨?_, ?_, ?_, ?_, ?_⟩ <;> simp [Row.new, Fraction.new]
  unfold compute_fov at hp ⊢
  rcases List.mem_cons.mp hp with rfl | hp2
  · exact List.mem_cons_self _ _
  · simp only [List.mem_flatten, List.mem_map] at hp2
    obtain ⟨l, ⟨q, hq, rfl⟩, hmem⟩ := hp2
    have hdist : (p.x - origin.x) * (p.x - origin.x) +
        (p.y - origin.y) * (p.y - origin.y) ≤ r * r :=
      scanRows_marks_dist _ _ p hmem
    have hnd : p ∈ scanRowsND is_blocking origin q r (r.toNat + 1)
        (Row.new 1 (Fraction.new (-1) 1) (Fraction.new 1 1)) :=
      (scanRows_eq_ND is_blocking origin q r (r.toNat + 1) (r.toNat + 1)
        (Row.new 1 (Fraction.new (-1) 1) (Fraction.new 1 1))
        (Row.new 1 (Fraction.new (-1) 1) (Fraction.new 1 1)) hroot hroot rfl
        (EqS_refl _ _ _) (EqE_refl _ _ _)
        (show r < (1:Int) + ((r.toNat + 1 : Nat) : Int) by omega)
        (show r < (1:Int) + ((r.toNat + 1 : Nat) : Int) by omega) p hdist).mp hmem
    have hnd2 : p ∈ scanRowsND is_blocking origin q (r + 1) ((r + 1).toNat + 1)
        (Row.new 1 (Fraction.new (-1) 1) (Fraction.new 1 1)) :=
      scanRowsND_cutoff_mono (by omega : r ≤ r + 1) (r.toNat + 1) ((r + 1).toNat + 1)
        (Row.new 1 (Fraction.new (-1) 1) (Fraction.new 1 1)) p
        (show r + 1 < (1:Int) + (((r + 1).toNat + 1 : Nat) : Int) by omega) hnd
    have hdist2 : (p.x - origin.x) * (p.x - origin.x) +
        (p.y - origin.y) * (p.y - origin.y) ≤ (r + 1) * (r + 1) := by nlinarith
    have hback : p ∈ scanRows is_blocking origin q (r + 1) ((r + 1) * (r + 1))
        ((r + 1).toNat + 1) (Row.new 1 (Fraction.new (-1) 1) (Fraction.new 1 1)) :=
      (scanRows_eq_ND is_blocking origin q (r + 1) ((r + 1).toNat + 1) ((r + 1).toNat + 1)
        (Row.new 1 (Fraction.new (-1) 1) (Fraction.new 1 1))
        (Row.new 1 (Fraction.new (-1) 1) (Fraction.new 1 1)) hroot hroot rfl
        (EqS_refl _ _ _) (EqE_refl _ _ _)
        (show r + 1 < (1:Int) + (((r + 1).toNat + 1 : Nat) : Int) by omega)
        (show r + 1 < (1:Int) + (((r + 1).toNat + 1 : Nat) : Int) by omega) p hdist2).mpr hnd2
    refine List.mem_cons.mpr (Or.inr ?_)
    simp only [List.mem_flatten, List.mem_map]
    exact ⟨_, ⟨q, hq, rfl⟩, hback⟩

/-- Witness for C4 at `origin = (0,0)`, `r = 0`, all-transparent map,
`p = origin`. -/
theorem compute_fov_radius_mono_witness :
    (0:Int) ≤ 0 ∧ Point.new 0 0 ∈ compute_fov (Point.new 0 0) 0 (fun _ => false) ∧
      Point.new 0 0 ∈ compute_fov (Point.new 0 0) (0 + 1) (fun _ => false) :=
  have h0 : Point.new 0 0 ∈ compute_fov (Point.new 0 0) 0 (fun _ => false) :=
    List.mem_cons_self _ _
  ⟨le_rfl, h0, compute_fov_radius_mono (Point.new 0 0) 0 (fun _ => false) le_rfl
    (Point.new 0 0) h0⟩

/-! ### C5: circle FOV equals shadowcast FOV on an all-transparent map -/

/-- The general form behind C5: for every `r ≥ 0` the two scans mark exactly
the same coordinate set on an all-transparent map. -/
theorem circle_eq_fov_transparent (origin : Point) (r : Int) (hr : 0 ≤ r) (p : Point) :
    p ∈ compute_fov_circle origin r ↔ p ∈ compute_fov origin r (fun _ => false) := by
  rw [mem_compute_fov_transparent origin r hr p, mem_compute_fov_circle_iff origin r hr p]
  constructor
  · rintro ⟨dx, dy, hle, rfl⟩
    simp only [Point.new]
    have hx : origin.x + dx - origin.x = dx := by omega
    have hy : origin.y + dy - origin.y = dy := by omega
    rw [hx, hy]
    exact hle
  · intro h
    refine ⟨p.x - origin.x, p.y - origin.y, h, ?_⟩
    rcases p with ⟨px, py⟩
    rcases origin with ⟨ox, oy⟩
    simp only [Point.new, Point.mk.injEq]
    constructor <;> omega

/-- C5: for every origin and `r ∈ {5, 10, 20}`, `compute_fov_circle` and
`compute_fov` with an always-false opacity predicate mark the same
coordinate set. -/
theorem compute_fov_circle_eq_open (origin : Point) (r : Int)
    (hr : r = 5 ∨ r = 10 ∨ r = 20) (p : Point) :
    p ∈ compute_fov_circle origin r ↔ p ∈ compute_fov origin r (fun _ => false) :=
  circle_eq_fov_transparent origin r (by rcases hr with rfl | rfl | rfl <;> norm_num) p

/-- Witness for C5 at `origin = (0,0)`, `r = 5`, `p = (3,4)`. -/
theorem compute_fov_circle_eq_open_witness :
    ((5:Int) = 5 ∨ (5:Int) = 10 ∨ (5:Int) = 20) ∧
    (Point.new 3 4 ∈ compute_fov_circle (Point.new 0 0) 5 ↔
      Point.new 3 4 ∈ compute_fov (Point.new 0 0) 5 (fun _ => false)) :=
  ⟨Or.inl rfl, compute_fov_circle_eq_open (Point.new 0 0) 5 (Or.inl rfl) (Point.new 3 4)⟩

end Runeforge
